import Mathlib

/-!
Verification of the local-first encrypted storage and analysis subsystem of a
browser-resident journaling application.  The definitions below are a shallow
embedding of the TypeScript source:

* `src/lib/encryption.ts`   — `EncryptionManager`, `encryptText`/`decryptText`,
  `encryptJournalEntry`/`decryptJournalEntry`;
* `src/lib/database.ts`     — `DatabaseManager` over IndexedDB object stores;
* `src/lib/storageService.ts` — `StorageService` (save, enable/disable
  encryption, import, duplicate cleanup);
* `src/lib/aiService.ts`    — `AIService` (local sentiment heuristic, cache,
  rate limiter, writing streak).

Timestamps are modelled as milliseconds (`Int`), matching `Date.getTime()`.
Nondeterministic inputs of the source (fresh UUIDs from `crypto.randomUUID`,
fresh nonces from `crypto.getRandomValues`, the current time from `new Date()`)
are threaded explicitly as parameters, so every definition is executable.
-/

namespace VibeJournal

/-!
## Cryptographic provider

Modelled from the spec: the actual PBKDF2 / AES-GCM primitives live in the
browser WebCrypto API (`crypto.subtle`), outside the repository.  The spec's
external-interface contract for the cryptographic provider is: password-based
key derivation (iterated, salted hash) producing a symmetric key, and
authenticated symmetric encryption keyed by the key and a per-call nonce,
whose decryption distinguishably fails (rather than returning garbage) on a
wrong key or corrupted input.  We model this as an ideal authenticated
encryption scheme: a ciphertext formally records the plaintext, the key and
the nonce it was produced with, and decryption succeeds exactly when the same
key and nonce are presented.  Key derivation is modelled as the injective
pairing of password and salt.
-/

/-- Modelled from the spec: a key derived by the WebCrypto PBKDF2 primitive
(missing from the repository).  Derivation is deterministic in the password
and the salt, so the key is modelled as that pair. -/
structure CryptoKey where
  password : String
  salt : Nat
deriving DecidableEq, Repr

/-- `deriveKeyFromPassword` of `encryption.ts` (the PBKDF2 call itself is
modelled from the spec as an injective derivation). -/
def deriveKeyFromPassword (password : String) (salt : Nat) : CryptoKey :=
  ⟨password, salt⟩

/-- Modelled from the spec: an AES-GCM ciphertext produced by the WebCrypto
primitive (missing from the repository).  The ideal ciphertext records the
plaintext, key and nonce used at encryption time. -/
structure CipherText where
  plaintext : String
  key : CryptoKey
  nonce : Nat
deriving DecidableEq, Repr

/-- Errors surfaced by the storage and encryption layer. -/
inductive StorageError where
  /-- An IndexedDB `add` rejected because the key already exists. -/
  | addFailed (store : String)
  /-- AES-GCM authentication failure: wrong key or corrupted data. -/
  | decryptionFailed
  /-- An operation that needs the in-memory key was called without one. -/
  | encryptionNotInitialized
  /-- `decryptJournalEntry` was called on a ciphertext entry without an IV. -/
  | ivRequired
deriving DecidableEq, Repr

/-- `encryptText` of `encryption.ts`: encrypt under a fresh 96-bit nonce
(threaded in as `nonce`) and return the ciphertext together with the nonce. -/
def encryptText (text : String) (key : CryptoKey) (nonce : Nat) :
    CipherText × Nat :=
  (⟨text, key, nonce⟩, nonce)

/-- `decryptText` of `encryption.ts`: authenticated decryption, which fails
unless the presented key and IV are the ones the ciphertext was produced
with (ideal-cipher model of AES-GCM authentication). -/
def decryptText (c : CipherText) (iv : Nat) (key : CryptoKey) :
    Except StorageError String :=
  if c.key = key ∧ c.nonce = iv then .ok c.plaintext
  else .error .decryptionFailed

/-!
## Data model (`database.ts`)
-/

/-- The `content` field of a `JournalEntry`: `string | ArrayBuffer` in the
source, a plaintext string or an encrypted buffer. -/
inductive EntryContent where
  | plain (text : String)
  | buffer (data : CipherText)
deriving DecidableEq, Repr

/-- `JournalEntry` of `database.ts`. -/
structure JournalEntry where
  id : String
  content : EntryContent
  emojis : List String
  timestamp : Int
  encrypted : Bool
  iv : Option Nat := none
  tags : Option (List String) := none
  mood : Option String := none
  createdAt : Int
  updatedAt : Int
deriving DecidableEq, Repr

/-- `ChatSession` of `database.ts` (the current, reference-only shape). -/
structure ChatSession where
  id : String
  entryIds : List String
  startTime : Int
  endTime : Option Int := none
  summary : Option String := none
deriving DecidableEq, Repr

/-- A record in the sessions store: either the current shape or the legacy
shape that embedded full entries (detected at runtime by
`cleanupDuplicateEntries`). -/
inductive SessionRecord where
  | modern (s : ChatSession)
  | legacy (id : String) (entries : List JournalEntry) (startTime : Int)
      (endTime : Option Int) (summary : Option String)
deriving DecidableEq, Repr

/-- Key of a session record in the sessions store. -/
def SessionRecord.id : SessionRecord → String
  | .modern s => s.id
  | .legacy i _ _ _ _ => i

/-- A value in the settings store. -/
inductive SettingValue where
  | bool (b : Bool)
  | str (s : String)
  | int (n : Int)
deriving DecidableEq, Repr

/-- The three IndexedDB object stores of `DatabaseManager`, each keyed by a
string (`id` for entries and sessions, `key` for settings).  Lists model the
store contents; list order abstracts the store's enumeration order. -/
structure DB where
  entries : List JournalEntry
  sessions : List SessionRecord
  settings : List (String × SettingValue)
deriving DecidableEq, Repr

/-- IndexedDB `put` semantics on a keyed list: replace the record with the
same key in place, or append if absent. -/
def putById {α : Type} (getId : α → String) (x : α) : List α → List α
  | [] => [x]
  | y :: ys => if getId y = getId x then x :: ys else y :: putById getId x ys

/-- `DatabaseManager.updateEntry` (IndexedDB `put`: upsert by `id`). -/
def DB.updateEntry (db : DB) (e : JournalEntry) : DB :=
  { db with entries := putById (fun x => x.id) e db.entries }

/-- `DatabaseManager.saveEntry` (IndexedDB `add`: fails if the key exists). -/
def DB.addEntry (db : DB) (e : JournalEntry) : Except StorageError DB :=
  if db.entries.any (fun x => x.id = e.id) then
    .error (.addFailed ("journalEntries"))
  else
    .ok { db with entries := db.entries ++ [e] }

/-- `DatabaseManager.deleteEntry` (IndexedDB `delete`: idempotent). -/
def DB.deleteEntry (db : DB) (i : String) : DB :=
  { db with entries := db.entries.filter (fun e => e.id ≠ i) }

/-- `DatabaseManager.saveSession` (IndexedDB `add`: fails if the key exists). -/
def DB.addSession (db : DB) (s : SessionRecord) : Except StorageError DB :=
  if db.sessions.any (fun x => x.id = s.id) then
    .error (.addFailed ("chatSessions"))
  else
    .ok { db with sessions := db.sessions ++ [s] }

/-- `DatabaseManager.updateSession` (IndexedDB `put`). -/
def DB.updateSession (db : DB) (s : SessionRecord) : DB :=
  { db with sessions := putById SessionRecord.id s db.sessions }

/-- Upsert in the settings store: `StorageService.saveSetting` reads the
existing value and calls `updateSetting` (put) if present, `saveSetting`
(add on a fresh key) otherwise — net effect an upsert by key. -/
def putKV (k : String) (v : SettingValue) :
    List (String × SettingValue) → List (String × SettingValue)
  | [] => [(k, v)]
  | (k0, v0) :: rest =>
      if k0 = k then (k, v) :: rest else (k0, v0) :: putKV k v rest

/-- `StorageService.saveSetting`. -/
def DB.putSetting (db : DB) (k : String) (v : SettingValue) : DB :=
  { db with settings := putKV k v db.settings }

/-!
## Entry encryption (`encryption.ts`)
-/

/-- The argument of `encryptJournalEntry`:
`Omit<JournalEntry, 'id' | 'encrypted' | 'createdAt' | 'updatedAt'>` minus the
`iv` field, i.e. the data the caller supplies. -/
structure EntryData where
  content : EntryContent
  emojis : List String
  timestamp : Int
  tags : Option (List String)
  mood : Option String
deriving DecidableEq, Repr

/-- Fresh UUIDs from `crypto.randomUUID`, threaded as a counter. -/
def mkId (n : Nat) : String := "uuid-" ++ toString n

/-- `encryptJournalEntry` of `encryption.ts`: encrypts the content (an empty
string when the content is not a string), mints a fresh `crypto.randomUUID()`
id, and stamps fresh `createdAt`/`updatedAt`.  `freshId` and `nonce` stand for
the random values, `now` for `new Date()`. -/
def encryptJournalEntry (entry : EntryData) (key : CryptoKey)
    (freshId : String) (nonce : Nat) (now : Int) : JournalEntry :=
  let content := match entry.content with
    | .plain s => s
    | .buffer _ => ""
  let enc := encryptText content key nonce
  { id := freshId
    content := .buffer enc.1
    emojis := entry.emojis
    timestamp := entry.timestamp
    encrypted := true
    iv := some enc.2
    tags := entry.tags
    mood := entry.mood
    createdAt := now
    updatedAt := now }

/-- `decryptJournalEntry` of `encryption.ts`. -/
def decryptJournalEntry (key : CryptoKey) (e : JournalEntry) :
    Except StorageError JournalEntry :=
  if e.encrypted = false then .ok e
  else match e.content with
    | .plain _ => .ok e
    | .buffer ct =>
      match e.iv with
      | none => .error .ivRequired
      | some iv =>
        match decryptText ct iv key with
        | .ok s => .ok { e with content := .plain s, encrypted := false }
        | .error err => .error err

/-!
## Encryption toggling (`storageService.ts`)

The `EncryptionManager` singleton's state is its in-memory key,
modelled as an `Option CryptoKey`.
-/

/-- The re-encryption loop of `StorageService.enableEncryption`: for every
entry of the snapshot that is not yet encrypted, build a fresh encrypted
record via `encryptJournalEntry` and `put` it into the store.  `ctr` feeds
the fresh UUID and nonce supplies. -/
def enableEncryptionLoop (key : CryptoKey) (now : Int) :
    List JournalEntry → DB → Nat → DB × Nat
  | [], db, ctr => (db, ctr)
  | e :: rest, db, ctr =>
    if e.encrypted then enableEncryptionLoop key now rest db ctr
    else
      let enc := encryptJournalEntry
        ⟨e.content, e.emojis, e.timestamp, e.tags, e.mood⟩
        key (mkId ctr) ctr now
      enableEncryptionLoop key now rest (db.updateEntry enc) (ctr + 1)

/-- `StorageService.enableEncryption`: snapshot the entries, initialize the
cipher manager with the password (key derived from the persisted salt), run
the re-encryption loop, then record the setting.  Returns the new store, the
manager's key and the advanced freshness counter. -/
def enableEncryption (password : String) (salt : Nat) (db : DB) (ctr : Nat)
    (now : Int) : DB × Option CryptoKey × Nat :=
  let key := deriveKeyFromPassword password salt
  let out := enableEncryptionLoop key now db.entries db ctr
  ((out.1.putSetting ("encryptionEnabled") (.bool true)), some key, out.2)

/-- The decryption loop of `StorageService.disableEncryption`: decrypt each
encrypted entry of the snapshot and `put` it back immediately; the first
decryption failure propagates as an exception, leaving the puts already made
in place. -/
def disableEncryptionLoop (key : CryptoKey) :
    List JournalEntry → DB → DB × Option StorageError
  | [], db => (db, none)
  | e :: rest, db =>
    if e.encrypted then
      match decryptJournalEntry key e with
      | .ok d => disableEncryptionLoop key rest
          (db.updateEntry { d with encrypted := false })
      | .error err => (db, some err)
    else disableEncryptionLoop key rest db

/-- `StorageService.disableEncryption`: fails fast when the cipher manager is
not initialized; otherwise decrypts every encrypted entry in place and, only
if the whole loop succeeded, clears the manager and records the setting.  The
result is the store, the manager state and the error, if any.  Note the
`password` argument is never consulted. -/
def disableEncryption (password : String) (db : DB) (mgr : Option CryptoKey) :
    DB × Option CryptoKey × Option StorageError :=
  match mgr with
  | none => (db, none, some .encryptionNotInitialized)
  | some key =>
    let out := disableEncryptionLoop key db.entries db
    match out.2 with
    | none =>
      ((out.1.putSetting ("encryptionEnabled") (.bool false)), none, none)
    | some err => (out.1, some key, some err)

/-!
## Analysis engine state (`aiService.ts`) — cache and results

For the cache-behaviour claims the analysis result is abstracted to its kind
and the `timestamp` field that `runLocalAnalysis`/`runAIAnalysis` stamp with
`new Date()` at computation time (the spec's `computedAt`); the sentiment
payload itself is modelled exactly in `analyzeSentimentLocally` below.
-/

/-- The three analysis kinds of `aiService.ts`. -/
inductive AnalysisType where
  | sentiment
  | patterns
  | trends
deriving DecidableEq, Repr

/-- An analysis result, abstracted to its kind and its computation
timestamp. -/
structure AnalysisOutcome where
  typ : AnalysisType
  computedAt : Int
deriving DecidableEq, Repr

/-- `CacheEntry` of `aiService.ts`. -/
structure CacheEntry where
  result : AnalysisOutcome
  timestamp : Int
  entryCount : Nat
deriving DecidableEq, Repr

/-- The `AIService` cache, a `Map<string, CacheEntry>` keyed by the
fingerprint string. -/
structure AIState where
  cache : List (String × CacheEntry)
deriving DecidableEq, Repr

/-- Map lookup on the cache. -/
def cacheFind (cache : List (String × CacheEntry)) (key : String) :
    Option CacheEntry :=
  match cache.find? (fun kv => kv.1 = key) with
  | some kv => some kv.2
  | none => none

/-- Map deletion on the cache. -/
def cacheErase (cache : List (String × CacheEntry)) (key : String) :
    List (String × CacheEntry) :=
  cache.filter (fun kv => kv.1 ≠ key)

/-- Map insertion (overwrite) on the cache. -/
def cacheInsert (cache : List (String × CacheEntry)) (key : String)
    (v : CacheEntry) : List (String × CacheEntry) :=
  putById (fun kv => kv.1) (key, v) cache

/-- `AIService.getCachedResult`: a hit requires the entry-count snapshot to
match and the 24-hour TTL not to be exceeded; a stale record is deleted.
Returns the hit, if any, together with the updated cache. -/
def getCachedResult (st : AIState) (key : String) (currentEntryCount : Nat)
    (now : Int) : Option AnalysisOutcome × AIState :=
  match cacheFind st.cache key with
  | none => (none, st)
  | some cached =>
    if cached.entryCount ≠ currentEntryCount then
      (none, ⟨cacheErase st.cache key⟩)
    else if now - cached.timestamp > 24 * 60 * 60 * 1000 then
      (none, ⟨cacheErase st.cache key⟩)
    else
      (some cached.result, st)

/-- `AIService.cacheResult`. -/
def cacheResult (st : AIState) (key : String) (result : AnalysisOutcome)
    (entryCount : Nat) (now : Int) : AIState :=
  ⟨cacheInsert st.cache key ⟨result, now, entryCount⟩⟩

/-- `AIService.clearCache`. -/
def clearCache (_st : AIState) : AIState := ⟨[]⟩

/-- `AIService.analyzeEntries` at the cache level (sequential execution, so
the pending-request coalescing map is always empty here): serve a valid cache
hit unchanged, otherwise compute a fresh result stamped `now` and cache it. -/
def analyzeEntries (st : AIState) (typ : AnalysisType) (key : String)
    (entryCount : Nat) (now : Int) : AnalysisOutcome × AIState :=
  match getCachedResult st key entryCount now with
  | (some r, st1) => (r, st1)
  | (none, st1) =>
    let r : AnalysisOutcome := ⟨typ, now⟩
    (r, cacheResult st1 key r entryCount now)

/-!
## Saving an entry (`storageService.ts`)
-/

/-- The entry `StorageService.saveJournalEntry` builds before persisting:
encrypted via the cipher manager when it is initialized, plaintext
otherwise. -/
def mkSavedEntry (content : String) (emojis : List String)
    (tags : Option (List String)) (mood : Option String)
    (mgr : Option CryptoKey) (ctr : Nat) (now : Int) : JournalEntry :=
  match mgr with
  | some key =>
    encryptJournalEntry ⟨.plain content, emojis, now, tags, mood⟩
      key (mkId ctr) ctr now
  | none =>
    { id := mkId ctr
      content := .plain content
      emojis := emojis
      timestamp := now
      encrypted := false
      iv := none
      tags := tags
      mood := mood
      createdAt := now
      updatedAt := now }

/-- `StorageService.saveJournalEntry`: encrypt when the cipher manager is
initialized, persist via the store's `add`, then clear the analysis cache.
On an `add` failure the exception propagates and the cache is not cleared. -/
def saveJournalEntry (content : String) (emojis : List String)
    (tags : Option (List String)) (mood : Option String) (db : DB)
    (mgr : Option CryptoKey) (ai : AIState) (ctr : Nat) (now : Int) :
    Except StorageError (JournalEntry × DB × AIState × Nat) :=
  let entry := mkSavedEntry content emojis tags mood mgr ctr now
  match db.addEntry entry with
  | .error err => .error err
  | .ok db1 => .ok (entry, db1, clearCache ai, ctr + 1)

/-!
## Import (`storageService.ts`)
-/

/-- An import bundle: the optional `entries`/`sessions`/`settings` of the
argument of `StorageService.importData`. -/
structure ImportBundle where
  entries : List JournalEntry
  sessions : List SessionRecord
  settings : List (String × SettingValue)
deriving DecidableEq, Repr

/-- The entry loop of `importData`: each record goes through
`dbManager.saveEntry`, i.e. IndexedDB `add`; the first rejection propagates,
leaving earlier additions in place. -/
def importEntriesLoop : List JournalEntry → DB → DB × Option StorageError
  | [], db => (db, none)
  | e :: rest, db =>
    match db.addEntry e with
    | .ok db1 => importEntriesLoop rest db1
    | .error err => (db, some err)

/-- The session loop of `importData` (`dbManager.saveSession`, also `add`). -/
def importSessionsLoop : List SessionRecord → DB → DB × Option StorageError
  | [], db => (db, none)
  | s :: rest, db =>
    match db.addSession s with
    | .ok db1 => importSessionsLoop rest db1
    | .error err => (db, some err)

/-- The settings loop of `importData` (`saveSetting`, an upsert). -/
def importSettingsLoop : List (String × SettingValue) → DB → DB
  | [], db => db
  | (k, v) :: rest, db => importSettingsLoop rest (db.putSetting k v)

/-- `StorageService.importData`: entries, then sessions, then settings; a
failed `add` aborts the remainder.  Records are persisted exactly as the
bundle encodes them — no re-encryption happens anywhere on this path. -/
def importData (bundle : ImportBundle) (db : DB) : DB × Option StorageError :=
  let outE := importEntriesLoop bundle.entries db
  match outE.2 with
  | some err => (outE.1, some err)
  | none =>
    let outS := importSessionsLoop bundle.sessions outE.1
    match outS.2 with
    | some err => (outS.1, some err)
    | none => (importSettingsLoop bundle.settings outS.1, none)

/-!
## Duplicate cleanup (`storageService.ts`)
-/

/-- The rendered content used as the grouping key component: the content
string for plaintext entries, the literal string `[encrypted]` for every
buffer-typed (encrypted) entry. -/
def renderedContent (e : JournalEntry) : String :=
  match e.content with
  | .plain s => s
  | .buffer _ => "[encrypted]"

/-- The duplicate-grouping key: the source builds the string
`content + "-" + timestamp`; since the timestamp part is all digits and
preceded by a dash, that string determines the pair, which we use directly. -/
def dupKey (e : JournalEntry) : String × Int :=
  (renderedContent e, e.timestamp)

/-- The grouping `Map` of `cleanupDuplicateEntries`: JS `Map` iteration is in
key-insertion order, so the groups are listed in order of each key's first
occurrence, each group holding the entries with that key in store order. -/
def entryGroups (es : List JournalEntry) :
    List ((String × Int) × List JournalEntry) :=
  ((es.map dupKey).dedup).map (fun k => (k, es.filter (fun e => dupKey e = k)))

/-- Stable insertion into a list sorted ascending by `createdAt`, placing the
new element after existing elements with a smaller-or-equal key — the
position `Array.prototype.sort` (stable) gives it. -/
def insertByCreatedAt (x : JournalEntry) :
    List JournalEntry → List JournalEntry
  | [] => [x]
  | y :: ys =>
    if y.createdAt ≤ x.createdAt then y :: insertByCreatedAt x ys
    else x :: y :: ys

/-- `entries.sort((a, b) => a.createdAt - b.createdAt)` — a stable sort
ascending by `createdAt`. -/
def sortByCreatedAt (l : List JournalEntry) : List JournalEntry :=
  l.foldl (fun acc x => insertByCreatedAt x acc) []

/-- Per-group keep/remove split of `cleanupDuplicateEntries`: a group with
more than one member keeps the first entry of the `createdAt`-sorted group
and marks the rest for removal; a singleton group is kept. -/
def groupKeepRemove (g : List JournalEntry) : List String × List String :=
  if g.length > 1 then
    let sorted := sortByCreatedAt g
    ((sorted.take 1).map (fun e => e.id), (sorted.drop 1).map (fun e => e.id))
  else (g.map (fun e => e.id), [])

/-- Delete a list of ids from the store, one `delete` per id. -/
def deleteEntries (db : DB) (ids : List String) : DB :=
  ids.foldl (fun d i => d.deleteEntry i) db

/-- The legacy-session migration pass of `cleanupDuplicateEntries`: a session
still in the embedded-entries shape is rewritten to reference-only form,
keeping only ids of entries that were not removed in this pass.  Returns the
rewritten sessions and the number of sessions updated. -/
def migrateSessions (keep : List String) :
    List SessionRecord → List SessionRecord × Nat
  | [] => ([], 0)
  | .modern s :: rest =>
    let out := migrateSessions keep rest
    (.modern s :: out.1, out.2)
  | .legacy i es st et su :: rest =>
    let out := migrateSessions keep rest
    let ids := (es.map (fun e => e.id)).filter (fun x => keep.contains x)
    (.modern ⟨i, ids, st, et, su⟩ :: out.1, out.2 + 1)

/-- The `entriesToKeep` set of `cleanupDuplicateEntries`: the id kept from
each group. -/
def entriesToKeep (es : List JournalEntry) : List String :=
  ((entryGroups es).map (fun kg => groupKeepRemove kg.2)).flatMap
    (fun p => p.1)

/-- The `entriesToRemove` set of `cleanupDuplicateEntries`: the ids of the
later-created members of each multi-member group. -/
def entriesToRemove (es : List JournalEntry) : List String :=
  ((entryGroups es).map (fun kg => groupKeepRemove kg.2)).flatMap
    (fun p => p.2)

/-- `StorageService.cleanupDuplicateEntries`: group by (rendered content,
timestamp), keep the earliest-`createdAt` member of each multi-member group
and delete the rest, then migrate legacy-shaped sessions.  Returns the store,
the number of removed entries and the number of updated sessions. -/
def cleanupDuplicateEntries (db : DB) : DB × Nat × Nat :=
  let toKeep := entriesToKeep db.entries
  let toRemove := entriesToRemove db.entries
  let db1 := deleteEntries db toRemove
  let sess := migrateSessions toKeep db1.sessions
  ({ db1 with sessions := sess.1 }, toRemove.length, sess.2)

/-!
## Local sentiment heuristic (`aiService.ts`)
-/

/-- The fixed positive-word lexicon of `analyzeSentimentLocally`. -/
def positiveWords : List String :=
  ["happy", "good", "great", "amazing", "wonderful", "love", "excited",
   "joy", "smile", "laugh", "grateful", "blessed", "proud", "accomplished",
   "peaceful"]

/-- The fixed negative-word lexicon of `analyzeSentimentLocally`. -/
def negativeWords : List String :=
  ["sad", "bad", "terrible", "awful", "hate", "angry", "frustrated",
   "worried", "anxious", "cry", "depressed", "stressed", "overwhelmed",
   "disappointed", "lonely"]

/-- Is `sub` a prefix of `l`? -/
def charsPrefix : List Char → List Char → Bool
  | [], _ => true
  | _ :: _, [] => false
  | a :: as, b :: bs => a = b && charsPrefix as bs

/-- Does `l` contain `sub` as a contiguous run?  (JS `String.includes`.) -/
def charsIncludes (sub : List Char) : List Char → Bool
  | [] => sub.isEmpty
  | c :: rest => charsPrefix sub (c :: rest) || charsIncludes sub rest

/-- JS `content.includes(word)`. -/
def strIncludes (s sub : String) : Bool :=
  charsIncludes sub.toList s.toList

/-- JS `String.prototype.toLowerCase`, character by character. -/
def lowercase (s : String) : String :=
  String.mk (s.data.map Char.toLower)

/-- Sentiment classification labels. -/
inductive SentimentKind where
  | positive
  | negative
  | neutral
deriving DecidableEq, Repr

/-- A per-entry sentiment record of `analyzeSentimentLocally`.  Scores are
rationals, modelling the JS numbers exactly on this arithmetic. -/
structure EntrySentiment where
  entryId : String
  sentiment : SentimentKind
  score : ℚ
  confidence : ℚ
deriving DecidableEq, Repr

/-- The full result of `analyzeSentimentLocally`. -/
structure SentimentResult where
  overallSentiment : SentimentKind
  sentimentScore : ℚ
  entrySentiments : List EntrySentiment
  confidence : ℚ
  timestamp : Int
deriving DecidableEq, Repr

/-- The per-entry computation of `analyzeSentimentLocally`: lexicon
counts over the lower-cased content (empty for encrypted entries), the
classification by strict comparison, and the score — note the negative
branch computes `Math.min(-negativeCount / 10, -1)` exactly as written. -/
def entrySentimentOf (e : JournalEntry) : EntrySentiment :=
  let content := match e.content with
    | .plain s => lowercase s
    | .buffer _ => ""
  let positiveCount :=
    (positiveWords.filter (fun w => strIncludes content w)).length
  let negativeCount :=
    (negativeWords.filter (fun w => strIncludes content w)).length
  if positiveCount > negativeCount then
    let score : ℚ := min ((positiveCount : ℚ) / 10) 1
    ⟨e.id, .positive, score, |score| * (8 / 10)⟩
  else if negativeCount > positiveCount then
    let score : ℚ := min (-(negativeCount : ℚ) / 10) (-1)
    ⟨e.id, .negative, score, |score| * (8 / 10)⟩
  else
    ⟨e.id, .neutral, 0, 0⟩

/-- `AIService.analyzeSentimentLocally` (`now` models `new Date()`). -/
def analyzeSentimentLocally (entries : List JournalEntry) (now : Int) :
    SentimentResult :=
  let entrySentiments := entries.map entrySentimentOf
  let overallScore : ℚ :=
    (entrySentiments.map (fun s => s.score)).sum / (entries.length : ℚ)
  let overallSentiment : SentimentKind :=
    if overallScore > 1 / 10 then .positive
    else if overallScore < -(1 / 10) then .negative
    else .neutral
  ⟨overallSentiment, overallScore, entrySentiments, 7 / 10, now⟩

/-!
## Rate limiter (`aiService.ts`)
-/

/-- `RateLimitState` of `aiService.ts`. -/
structure RateLimitState where
  lastRequestTime : Int
  requestCount : Nat
  resetTime : Int
deriving DecidableEq, Repr

/-- The initial, process-start rate-limit state. -/
def initRateLimitState : RateLimitState := ⟨0, 0, 0⟩

/-- `AIService.canMakeAPIRequest`: reset the window when `now` has passed
`resetTime`, then permit iff fewer than 3 calls are recorded.  Mutates the
state, so both the verdict and the new state are returned. -/
def canMakeAPIRequest (st : RateLimitState) (now : Int) :
    Bool × RateLimitState :=
  let st1 :=
    if now > st.resetTime then
      { st with requestCount := 0, resetTime := now + 60 * 1000 }
    else st
  (st1.requestCount < 3, st1)

/-- `AIService.updateRateLimitState`, called only after a remote call
returns successfully. -/
def updateRateLimitState (st : RateLimitState) (now : Int) : RateLimitState :=
  { st with lastRequestTime := now, requestCount := st.requestCount + 1 }

/-- The path `performAnalysis` takes for one request. -/
inductive AnalysisPath where
  /-- A remote call was issued and succeeded. -/
  | remoteSuccess
  /-- A remote call was issued, failed, and fell back to the local
  heuristic for this call only. -/
  | remoteFailedLocal
  /-- No remote call was issued; the local heuristic answered. -/
  | localOnly
deriving DecidableEq, Repr

/-- One sentiment request in a sequential run: its arrival time (when
`canMakeAPIRequest` is consulted), the completion time of the remote call
(when `updateRateLimitState` would run), and whether the remote call
succeeds.  All requests model distinct-fingerprint cache misses over entry
sets containing plaintext, as in the spec's rate-limiting scenario. -/
structure RemoteRequest where
  arrival : Int
  completion : Int
  succeeds : Bool
deriving DecidableEq, Repr

/-- A remote attempt recorded by a run: its decision time and the
`resetTime` of the window it was admitted into. -/
structure RemoteAttempt where
  time : Int
  windowReset : Int
  succeeded : Bool
deriving DecidableEq, Repr

/-- Sequential (non-overlapping) runs of `performAnalysis` for sentiment
requests with an API key configured and plaintext present: each request
consults `canMakeAPIRequest`; if permitted, a remote attempt is issued, and
only a successful one runs `updateRateLimitState`; otherwise the request
resolves via the local heuristic.  Returns the remote attempts issued, each
tagged by the window (`resetTime`) that admitted it, and the paths taken. -/
def performAnalysisSeq (st : RateLimitState) :
    List RemoteRequest → List RemoteAttempt × List AnalysisPath
  | [] => ([], [])
  | r :: rest =>
    let out := canMakeAPIRequest st r.arrival
    if out.1 then
      if r.succeeds then
        let tail := performAnalysisSeq (updateRateLimitState out.2 r.completion) rest
        (⟨r.arrival, out.2.resetTime, true⟩ :: tail.1, .remoteSuccess :: tail.2)
      else
        let tail := performAnalysisSeq out.2 rest
        (⟨r.arrival, out.2.resetTime, false⟩ :: tail.1,
         .remoteFailedLocal :: tail.2)
    else
      let tail := performAnalysisSeq out.2 rest
      (tail.1, .localOnly :: tail.2)

/-!
## Writing streak (`aiService.ts`)
-/

/-- The calendar day of an entry: `toDateString` collapses the timestamp to
its (local) day, modelled as the floor of the millisecond timestamp over one
day. -/
def dayOf (e : JournalEntry) : Int := e.timestamp.fdiv 86400000

/-- Insertion into a descending-sorted list. -/
def insertDesc (x : Int) : List Int → List Int
  | [] => [x]
  | y :: ys => if x ≥ y then x :: y :: ys else y :: insertDesc x ys

/-- `sort((a, b) => b.getTime() - a.getTime())` — sort descending. -/
def sortDesc (l : List Int) : List Int := l.foldr insertDesc []

/-- The walk of `calculateWritingStreak` down the distinct entry days in
descending order: a day is counted while
`Math.ceil((currentDate - date) / day) <= 1` (both dates are midnights, so
the ceiling is the exact day difference), and `currentDate` moves to the
counted day; the first larger gap stops the walk. -/
def streakLoop (cur : Int) : List Int → Nat
  | [] => 0
  | d :: rest => if cur - d ≤ 1 then 1 + streakLoop d rest else 0

/-- `AIService.calculateWritingStreak`; `today` is the current calendar day
(`new Date()` at midnight). -/
def calculateWritingStreak (today : Int) (entries : List JournalEntry) :
    Nat :=
  if entries.isEmpty then 0
  else streakLoop today (sortDesc ((entries.map dayOf).dedup))

/-- Does any entry fall on calendar day `d`? -/
def hasDay (days : List Int) (d : Int) : Bool := decide (d ∈ days)

/-- Modelled from the spec: walking backward one calendar day at a time,
count days that have an entry, stopping at the first day without one.
`fuel` bounds the walk by the number of distinct entry days. -/
def countDown (days : List Int) : Nat → Int → Nat
  | 0, _ => 0
  | fuel + 1, cur =>
    if hasDay days cur then 1 + countDown days fuel (cur - 1) else 0

/-- Modelled from the spec: the writing streak is the count of consecutive
calendar days with at least one entry, walking backward from today and
stopping at the first gap greater than 1 day — so the walk may start at
today or, if today has no entry, at yesterday (a 1-day gap), and from there
counts strictly consecutive entry days. -/
def specWritingStreak (today : Int) (entries : List JournalEntry) : Nat :=
  let days := (entries.map dayOf).dedup
  let fuel := days.length
  if hasDay days today then 1 + countDown days fuel (today - 1)
  else if hasDay days (today - 1) then 1 + countDown days fuel (today - 2)
  else 0

/-!
## Derived helper definitions
-/

/-- The committed image of one entry under the `disableEncryption` loop: an
encrypted entry is replaced by its successful decryption (with the
`encrypted` flag forced to `false`, as the source does), anything else is
left alone. -/
def decryptCommit (k : CryptoKey) (e : JournalEntry) : JournalEntry :=
  if e.encrypted then
    match decryptJournalEntry k e with
    | .ok d => { d with encrypted := false }
    | .error _ => e
  else e

/-!
## Concrete stores and entries used in the example theorems
-/

/-- A single plaintext entry. -/
def entryHello : JournalEntry :=
  { id := "e1", content := .plain ("hello"), emojis := [], timestamp := 0,
    encrypted := false, createdAt := 0, updatedAt := 0 }

/-- A store holding just `entryHello`. -/
def dbOnePlain : DB := ⟨[entryHello], [], []⟩

/-- The key derived from the password `pw` with salt 0. -/
def kPw : CryptoKey := ⟨"pw", 0⟩

/-- A key derived from a different password. -/
def kOther : CryptoKey := ⟨"other", 0⟩

/-- An entry encrypted under `kPw`. -/
def encA : JournalEntry :=
  { id := "a", content := .buffer ⟨"one", kPw, 1⟩, emojis := [],
    timestamp := 0, encrypted := true, iv := some 1, createdAt := 0,
    updatedAt := 0 }

/-- An entry encrypted under `kOther` (e.g. persisted in a session whose
cipher manager had been initialized with a different password). -/
def encB : JournalEntry :=
  { id := "b", content := .buffer ⟨"two", kOther, 2⟩, emojis := [],
    timestamp := 0, encrypted := true, iv := some 2, createdAt := 0,
    updatedAt := 0 }

/-- A store whose two ciphertext entries are under different keys. -/
def dbMixedKeys : DB := ⟨[encA, encB], [], []⟩

/-- A store whose single ciphertext entry is under the manager's key. -/
def dbOneCipher : DB := ⟨[encA], [], []⟩

/-- An encrypted entry with timestamp 100, created at 1. -/
def encDupA : JournalEntry :=
  { id := "a", content := .buffer ⟨"one", kPw, 1⟩, emojis := [],
    timestamp := 100, encrypted := true, iv := some 1, createdAt := 1,
    updatedAt := 1 }

/-- A second encrypted entry (different ciphertext) with the same
timestamp 100, created at 2. -/
def encDupB : JournalEntry :=
  { id := "b", content := .buffer ⟨"two", kPw, 2⟩, emojis := [],
    timestamp := 100, encrypted := true, iv := some 2, createdAt := 2,
    updatedAt := 2 }

/-- A store with two encrypted entries sharing a timestamp. -/
def dbEncryptedPair : DB := ⟨[encDupA, encDupB], [], []⟩

/-- Scenario C: plaintext content `ok`, timestamp 100, created at 1. -/
def okT1 : JournalEntry :=
  { id := "t1", content := .plain ("ok"), emojis := [], timestamp := 100,
    encrypted := false, createdAt := 1, updatedAt := 1 }

/-- Scenario C: identical content and timestamp, created at 2. -/
def okT2 : JournalEntry :=
  { id := "t2", content := .plain ("ok"), emojis := [], timestamp := 100,
    encrypted := false, createdAt := 2, updatedAt := 2 }

/-- The Scenario C store. -/
def dbScenarioC : DB := ⟨[okT1, okT2], [], []⟩

/-- A modified record carrying the id of `entryHello`, as an import bundle
would after an edit elsewhere. -/
def entryHelloChanged : JournalEntry :=
  { id := "e1", content := .plain ("changed"), emojis := [], timestamp := 7,
    encrypted := false, createdAt := 7, updatedAt := 7 }

/-- An import bundle colliding with `dbOnePlain` on id `e1`. -/
def bundleColliding : ImportBundle := ⟨[entryHelloChanged], [], []⟩

/-- An import bundle with fresh ids, one of them an encrypted record. -/
def bundleFresh : ImportBundle :=
  ⟨[{ id := "n1", content := .plain ("new"), emojis := [], timestamp := 3,
      encrypted := false, createdAt := 3, updatedAt := 3 }, encA],
   [.modern ⟨"s1", ["n1"], 3, none, none⟩], [("theme", .str ("dark"))]⟩

/-- An entry whose content is the single negative-lexicon word `sad`. -/
def sadEntry : JournalEntry :=
  { id := "s", content := .plain ("sad"), emojis := [], timestamp := 0,
    encrypted := false, createdAt := 0, updatedAt := 0 }

/-- An entry whose content matches eleven negative-lexicon words and no
positive-lexicon word. -/
def verySadEntry : JournalEntry :=
  { id := "v",
    content := .plain
      ("sad bad terrible awful hate angry frustrated worried anxious cry depressed"),
    emojis := [], timestamp := 0, encrypted := false, createdAt := 0,
    updatedAt := 0 }

/-- A plaintext entry on calendar day `d` (timestamp at that day's
midnight). -/
def entryOnDay (i : String) (d : Int) : JournalEntry :=
  { id := i, content := .plain ("x"), emojis := [], timestamp := d * 86400000,
    encrypted := false, createdAt := 0, updatedAt := 0 }

/-- Entries on days today, today−1 and today−3 for `today = 0`. -/
def streakScenarioEntries : List JournalEntry :=
  [entryOnDay ("p") 0, entryOnDay ("q") (-1), entryOnDay ("r") (-3)]

/-- Entries on days today+5, today and today−1 for `today = 0`. -/
def streakFutureEntries : List JournalEntry :=
  [entryOnDay ("p") 5, entryOnDay ("q") 0, entryOnDay ("r") (-1)]

/-- Four sentiment requests within 10 seconds whose remote calls all
succeed. -/
def fourOkRequests : List RemoteRequest :=
  [⟨1000, 1500, true⟩, ⟨3000, 3500, true⟩, ⟨5000, 5500, true⟩,
   ⟨7000, 7500, true⟩]

/-- Four sentiment requests within 10 seconds whose remote calls all fail
(e.g. the network is down). -/
def fourFailingRequests : List RemoteRequest :=
  [⟨1000, 1500, false⟩, ⟨3000, 3500, false⟩, ⟨5000, 5500, false⟩,
   ⟨7000, 7500, false⟩]

/-!
## Theorems
-/

/-- C1: on a store with one plaintext entry, `enableEncryption` does not
re-encrypt in place: the loop builds the encrypted record through
`encryptJournalEntry`, which mints a fresh `crypto.randomUUID()` id, so the
`put` inserts a second record under the new id while the plaintext record
survives untouched under its old id — contradicting the claim that every
formerly-plaintext entry is stored encrypted under the same id, with no new
records and no plaintext copies. -/
theorem enableEncryption_leaves_plaintext_copy :
    (enableEncryption ("pw") 0 dbOnePlain 0 5).1.entries.length = 2 ∧
    (∃ e ∈ (enableEncryption ("pw") 0 dbOnePlain 0 5).1.entries,
       e.id = "e1" ∧ e.encrypted = false ∧ e.content = .plain ("hello")) ∧
    (enableEncryption ("pw") 0 dbOnePlain 0 5).1.entries.map
        (fun e => e.id) = ["e1", "uuid-0"] ∧
    (∃ e ∈ (enableEncryption ("pw") 0 dbOnePlain 0 5).1.entries,
       e.id = "uuid-0" ∧ e.encrypted = true) := by
  decide

/-- C2 counterexample: on a store whose first ciphertext entry is under the
manager's key and whose second is under a different key,
`disableEncryption` decrypts and commits the first entry before the second
one's decryption fails — so a failing call does mutate the store,
contradicting the all-or-nothing reading of the claim. -/
theorem disableEncryption_commits_before_failure :
    (disableEncryption ("pw") dbMixedKeys (some kPw)).2.2 =
      some .decryptionFailed ∧
    (disableEncryption ("pw") dbMixedKeys (some kPw)).1 ≠ dbMixedKeys ∧
    (∃ e ∈ (disableEncryption ("pw") dbMixedKeys (some kPw)).1.entries,
       e.id = "a" ∧ e.encrypted = false ∧ e.content = .plain ("one")) := by
  decide

/-- C3: round trip of the cryptographic provider — decrypting a ciphertext
with the key (and nonce) it was produced under returns the original
plaintext, and decrypting it under the key derived (from the same salt)
from any other password fails with a decryption error. -/
theorem encrypt_decrypt_roundtrip (s p p' : String) (salt nonce : Nat)
    (h : p' ≠ p) :
    decryptText (encryptText s (deriveKeyFromPassword p salt) nonce).1
        (encryptText s (deriveKeyFromPassword p salt) nonce).2
        (deriveKeyFromPassword p salt) = .ok s ∧
    decryptText (encryptText s (deriveKeyFromPassword p salt) nonce).1
        (encryptText s (deriveKeyFromPassword p salt) nonce).2
        (deriveKeyFromPassword p' salt) = .error .decryptionFailed := by
  constructor
  · simp [encryptText, decryptText]
  · have hk : deriveKeyFromPassword p salt ≠ deriveKeyFromPassword p' salt := by
      simp [deriveKeyFromPassword]
      exact fun hpq => (h hpq.symm).elim
    simp [encryptText, decryptText, hk]

/-- C3 witness: the round-trip theorem instantiated at a concrete string and
two concrete distinct passwords. -/
theorem encrypt_decrypt_roundtrip_witness :
    decryptText (encryptText ("hi") (deriveKeyFromPassword ("a") 0) 4).1
        (encryptText ("hi") (deriveKeyFromPassword ("a") 0) 4).2
        (deriveKeyFromPassword ("a") 0) = .ok ("hi") ∧
    decryptText (encryptText ("hi") (deriveKeyFromPassword ("a") 0) 4).1
        (encryptText ("hi") (deriveKeyFromPassword ("a") 0) 4).2
        (deriveKeyFromPassword ("b") 0) = .error .decryptionFailed :=
  encrypt_decrypt_roundtrip ("hi") ("a") ("b") 0 4 (by decide)

/-- C4 counterexample: two encrypted entries sharing a timestamp both render
as the bucket string `[encrypted]`, so `cleanupDuplicateEntries` treats them
as duplicates of each other and deletes the one with the later `createdAt` —
contradicting the claim that an encrypted entry is never deleted as a
duplicate of another encrypted entry. -/
theorem cleanup_merges_encrypted_entries :
    (∀ e ∈ dbEncryptedPair.entries, e.encrypted = true) ∧
    (cleanupDuplicateEntries dbEncryptedPair).2.1 = 1 ∧
    (cleanupDuplicateEntries dbEncryptedPair).1.entries.map (fun e => e.id) =
      ["a"] := by
  decide

/-- C5 counterexample: importing a bundle whose entry id already exists in
the store fails with the store's duplicate-key `add` error and leaves the
existing record unchanged — `importData` does not upsert. -/
theorem importData_fails_on_existing_id :
    (importData bundleColliding dbOnePlain).2 =
      some (.addFailed ("journalEntries")) ∧
    (importData bundleColliding dbOnePlain).1 = dbOnePlain := by
  decide

/-- C6: the negative branch of the local sentiment heuristic computes
`Math.min(-negativeCount / 10, -1)`, which clamps in the wrong direction:
one negative-lexicon match yields score −1 instead of the specified
−min(negativeCount/10, 1) = −1/10, and eleven matches yield −11/10, outside
the result type's documented −1..1 score range. -/
theorem sentiment_negative_score_misclamped :
    (entrySentimentOf sadEntry).score = -1 ∧
    (analyzeSentimentLocally [sadEntry] 0).sentimentScore = -1 ∧
    ((-1 : ℚ) ≠ -(min ((1 : ℚ) / 10) 1)) ∧
    (analyzeSentimentLocally [verySadEntry] 0).sentimentScore = -(11 / 10) ∧
    ((-(11 / 10) : ℚ) < -1) := by
  have hp1 : (positiveWords.filter
      (fun w => strIncludes (lowercase ("sad")) w)).length = 0 := by decide
  have hn1 : (negativeWords.filter
      (fun w => strIncludes (lowercase ("sad")) w)).length = 1 := by decide
  have hp2 : (positiveWords.filter (fun w => strIncludes (lowercase
      ("sad bad terrible awful hate angry frustrated worried anxious cry depressed"))
      w)).length = 0 := by decide
  have hn2 : (negativeWords.filter (fun w => strIncludes (lowercase
      ("sad bad terrible awful hate angry frustrated worried anxious cry depressed"))
      w)).length = 11 := by decide
  have e1 : (entrySentimentOf sadEntry).score = -1 := by
    simp only [entrySentimentOf, sadEntry, hp1, hn1]
    norm_num [min_def]
  have e2 : (entrySentimentOf verySadEntry).score = -(11 / 10) := by
    simp only [entrySentimentOf, verySadEntry, hp2, hn2]
    norm_num [min_def]
  refine ⟨e1, ?_, by norm_num [min_def], ?_, by norm_num⟩
  · simp only [analyzeSentimentLocally, List.map_cons, List.map_nil, e1,
      List.sum_cons, List.sum_nil, List.length_cons, List.length_nil]
    norm_num
  · simp only [analyzeSentimentLocally, List.map_cons, List.map_nil, e2,
      List.sum_cons, List.sum_nil, List.length_cons, List.length_nil]
    norm_num

/-- C8 counterexample: `updateRateLimitState` runs only after a remote call
returns successfully, so failed remote attempts never count against the
window; four sentiment cache misses within 10 seconds whose remote calls
all fail issue four remote attempts inside one 60-second window —
contradicting the claim that at most 3 remote calls are issued in any
window of every execution. -/
theorem rate_limiter_ignores_failed_attempts :
    (performAnalysisSeq initRateLimitState fourFailingRequests).1.length = 4 ∧
    (∀ a ∈ (performAnalysisSeq initRateLimitState fourFailingRequests).1,
       a.windowReset = 61000 ∧ 1000 ≤ a.time ∧ a.time ≤ 7000) := by
  decide

/-- C9 counterexample: with an entry dated five days in the future, the
code's walk starts at the future day and breaks on the gap back to today,
returning 1, while the spec's backward walk from today over days
{today+5, today, today−1} counts today and yesterday, returning 2. -/
theorem writing_streak_future_entry_diverges :
    calculateWritingStreak 0 streakFutureEntries = 1 ∧
    specWritingStreak 0 streakFutureEntries = 2 := by
  decide

/-- C10: `disableEncryption` never consults its password argument — for any
two passwords, any store and any cipher-manager state, the resulting store,
manager state and outcome are identical. -/
theorem disableEncryption_password_irrelevant (p1 p2 : String) (db : DB)
    (mgr : Option CryptoKey) :
    disableEncryption p1 db mgr = disableEncryption p2 db mgr := rfl

/-- Inserting into the cache map and looking the same key up yields the
inserted record. -/
lemma cacheFind_cacheInsert (c : List (String × CacheEntry)) (k : String)
    (v : CacheEntry) : cacheFind (cacheInsert c k v) k = some v := by
  induction c with
  | nil => simp [cacheInsert, putById, cacheFind]
  | cons hd tl ih =>
    by_cases h : hd.1 = k
    · simp [cacheInsert, putById, h, cacheFind]
    · simpa [cacheInsert, putById, h, cacheFind, List.find?] using ih

/-- C7: over an unchanged entry set, a second request for the same analysis
within 24 hours returns the cached result itself (identical `computedAt`),
while a `saveJournalEntry` between the two requests clears the analysis
cache, so the second request recomputes with a fresh, different
`computedAt`. -/
theorem analysis_cache_hit_and_invalidation
    (ai : AIState) (typ : AnalysisType) (key : String) (n n2 : Nat)
    (now1 now2 tS : Int) (content : String) (emojis : List String)
    (tags : Option (List String)) (mood : Option String) (db : DB)
    (mgr : Option CryptoKey) (ctr : Nat) (entry : JournalEntry) (db1 : DB)
    (ai1 : AIState) (ctr1 : Nat)
    (hfresh : cacheFind ai.cache key = none)
    (h24 : now2 - now1 ≤ 24 * 60 * 60 * 1000)
    (hlt : now1 < now2)
    (hsave : saveJournalEntry content emojis tags mood db mgr
        (analyzeEntries ai typ key n now1).2 ctr tS =
      .ok (entry, db1, ai1, ctr1)) :
    (analyzeEntries ai typ key n now1).1.computedAt = now1 ∧
    (analyzeEntries (analyzeEntries ai typ key n now1).2 typ key n now2).1 =
      (analyzeEntries ai typ key n now1).1 ∧
    (analyzeEntries ai1 typ key n2 now2).1.computedAt = now2 ∧
    (analyzeEntries ai1 typ key n2 now2).1.computedAt ≠
      (analyzeEntries ai typ key n now1).1.computedAt := by
  have h1 : analyzeEntries ai typ key n now1 =
      (⟨typ, now1⟩, ⟨cacheInsert ai.cache key ⟨⟨typ, now1⟩, now1, n⟩⟩) := by
    simp [analyzeEntries, getCachedResult, hfresh, cacheResult]
  have h2 : analyzeEntries (analyzeEntries ai typ key n now1).2 typ key n
      now2 = ((analyzeEntries ai typ key n now1).1,
        (analyzeEntries ai typ key n now1).2) := by
    rw [h1]
    simp only [analyzeEntries, getCachedResult, cacheFind_cacheInsert]
    have hTTL : ¬ ((86400000 : Int) < now2 - now1) := by omega
    simp [hTTL]
  have hclear : ai1 = ⟨[]⟩ := by
    unfold saveJournalEntry at hsave
    rcases hadd : DB.addEntry db
        (mkSavedEntry content emojis tags mood mgr ctr tS) with db' | db'
    · simp only [hadd] at hsave
      exact absurd hsave (by simp)
    · simp only [hadd] at hsave
      have := congrArg (fun x : JournalEntry × DB × AIState × Nat => x.2.2.1)
        (Except.ok.inj hsave)
      simpa [clearCache] using this.symm
  have h3 : analyzeEntries ai1 typ key n2 now2 =
      (⟨typ, now2⟩, ⟨cacheInsert [] key ⟨⟨typ, now2⟩, now2, n2⟩⟩) := by
    rw [hclear]
    simp [analyzeEntries, getCachedResult, cacheFind, cacheResult]
  refine ⟨by rw [h1], by rw [h2], by rw [h3], ?_⟩
  rw [h3, h1]
  simp only []
  intro hcontra
  omega

/-- C7 witness: the cache theorem at a concrete service state — a sentiment
analysis at time 10 over 2 entries, repeated at time 500, with a concrete
successful save in between. -/
theorem analysis_cache_hit_and_invalidation_witness :
    (analyzeEntries ⟨[]⟩ .sentiment ("k") 2 10).1.computedAt = 10 ∧
    (analyzeEntries (analyzeEntries ⟨[]⟩ .sentiment ("k") 2 10).2 .sentiment
        ("k") 2 500).1 = (analyzeEntries ⟨[]⟩ .sentiment ("k") 2 10).1 ∧
    (analyzeEntries ⟨[]⟩ .sentiment ("k") 3 500).1.computedAt = 500 ∧
    (analyzeEntries ⟨[]⟩ .sentiment ("k") 3 500).1.computedAt ≠
      (analyzeEntries ⟨[]⟩ .sentiment ("k") 2 10).1.computedAt :=
  analysis_cache_hit_and_invalidation ⟨[]⟩ .sentiment ("k") 2 3 10 500 77
    ("x") [] none none ⟨[], [], []⟩ none 0
    { id := mkId 0, content := .plain ("x"), emojis := [], timestamp := 77,
      encrypted := false, iv := none, tags := none, mood := none,
      createdAt := 77, updatedAt := 77 }
    ⟨[{ id := mkId 0, content := .plain ("x"), emojis := [], timestamp := 77,
        encrypted := false, iv := none, tags := none, mood := none,
        createdAt := 77, updatedAt := 77 }], [], []⟩
    ⟨[]⟩ 1 (by decide) (by decide) (by decide) (by rfl)

/-- The import entry loop on bundles whose ids are fresh and pairwise
distinct: every record is appended verbatim and no error occurs. -/
lemma importEntriesLoop_ok :
    ∀ (bs : List JournalEntry) (db : DB),
      (bs.map (fun e => e.id)).Nodup →
      (∀ e ∈ bs, e.id ∉ db.entries.map (fun x => x.id)) →
      importEntriesLoop bs db =
        ({ db with entries := db.entries ++ bs }, none)
  | [], db, _, _ => by simp [importEntriesLoop]
  | e :: rest, db, hN, hF => by
    have he : e.id ∉ db.entries.map (fun x => x.id) := hF e (by simp)
    have hany : db.entries.any (fun x => x.id = e.id) = false := by
      simp only [List.any_eq_false, decide_eq_true_eq]
      intro x hx hxe
      exact he (List.mem_map.mpr ⟨x, hx, hxe⟩)
    have hstep : db.addEntry e = .ok { db with entries := db.entries ++ [e] } := by
      simp [DB.addEntry, hany]
    have hN' : (rest.map (fun e => e.id)).Nodup := by
      simpa using hN.of_cons
    have hN2 := hN
    rw [List.map_cons, List.nodup_cons] at hN2
    have hne : ∀ x ∈ rest, x.id ≠ e.id := by
      intro x hx hxe
      exact hN2.1 (List.mem_map.mpr ⟨x, hx, hxe⟩)
    have hF' : ∀ x ∈ rest,
        x.id ∉ ({ db with entries := db.entries ++ [e] } : DB).entries.map
          (fun x => x.id) := by
      intro x hx
      simp only [List.map_append, List.mem_append, List.map_cons,
        List.map_nil, List.mem_cons]
      rintro (hmem | hmem)
      · exact hF x (by simp [hx]) hmem
      · rcases hmem with hmem | hfal
        · exact hne x hx hmem
        · simp at hfal
    have ih := importEntriesLoop_ok rest
      { db with entries := db.entries ++ [e] } hN' hF'
    simp only [importEntriesLoop, hstep, ih]
    simp

/-- If some bundle entry collides with an id already in the store, then
the entry loop of the import surfaces an error. -/
lemma importEntriesLoop_err :
    ∀ (bs : List JournalEntry) (db : DB),
      (∃ e ∈ bs, e.id ∈ db.entries.map (fun x => x.id)) →
      (importEntriesLoop bs db).2 ≠ none
  | [], db, hex => by simp at hex
  | e :: rest, db, hex => by
    rcases hadd : db.addEntry e with err | db1
    · simp [importEntriesLoop, hadd]
    · have hany : db.entries.any (fun x => x.id = e.id) = false := by
        by_contra hc
        simp only [DB.addEntry] at hadd
        rw [Bool.not_eq_false] at hc
        rw [if_pos hc] at hadd
        exact absurd hadd (by simp)
    -- a successful add means `e` was fresh, so the collision is in `rest`
      have henotin : e.id ∉ db.entries.map (fun x => x.id) := by
        simp only [List.any_eq_false, decide_eq_true_eq] at hany
        intro hmem
        rcases List.mem_map.mp hmem with ⟨x, hx, hxe⟩
        exact hany x hx hxe
      have hdb1 : db1 = { db with entries := db.entries ++ [e] } := by
        simp only [DB.addEntry, hany] at hadd
        rw [if_neg (by simp [hany])] at hadd
        exact (Except.ok.inj hadd).symm
      rcases hex with ⟨x, hx, hxid⟩
      rcases List.mem_cons.mp hx with rfl | hxrest
      · exact absurd hxid henotin
      · have hex' : ∃ y ∈ rest, y.id ∈ db1.entries.map (fun x => x.id) := by
          refine ⟨x, hxrest, ?_⟩
          rw [hdb1]
          simp only [List.map_append, List.mem_append]
          exact Or.inl hxid
        have := importEntriesLoop_err rest db1 hex'
        simpa [importEntriesLoop, hadd] using this

/-- The import session loop on bundles with fresh, pairwise-distinct
session ids appends every record verbatim. -/
lemma importSessionsLoop_ok :
    ∀ (bs : List SessionRecord) (db : DB),
      (bs.map SessionRecord.id).Nodup →
      (∀ s ∈ bs, SessionRecord.id s ∉ db.sessions.map SessionRecord.id) →
      importSessionsLoop bs db =
        ({ db with sessions := db.sessions ++ bs }, none)
  | [], db, _, _ => by simp [importSessionsLoop]
  | s :: rest, db, hN, hF => by
    have hs : SessionRecord.id s ∉ db.sessions.map SessionRecord.id :=
      hF s (by simp)
    have hany : db.sessions.any (fun x => x.id = s.id) = false := by
      simp only [List.any_eq_false, decide_eq_true_eq]
      intro x hx hxs
      exact hs (List.mem_map.mpr ⟨x, hx, hxs⟩)
    have hstep : db.addSession s =
        .ok { db with sessions := db.sessions ++ [s] } := by
      simp [DB.addSession, hany]
    have hN' : (rest.map SessionRecord.id).Nodup := by
      simpa using hN.of_cons
    have hN2 := hN
    rw [List.map_cons, List.nodup_cons] at hN2
    have hne : ∀ x ∈ rest, SessionRecord.id x ≠ SessionRecord.id s := by
      intro x hx hxe
      exact hN2.1 (List.mem_map.mpr ⟨x, hx, hxe⟩)
    have hF' : ∀ x ∈ rest, SessionRecord.id x ∉
        ({ db with sessions := db.sessions ++ [s] } : DB).sessions.map
          SessionRecord.id := by
      intro x hx
      simp only [List.map_append, List.mem_append, List.map_cons,
        List.map_nil, List.mem_cons]
      rintro (hmem | hmem)
      · exact hF x (by simp [hx]) hmem
      · rcases hmem with hmem | hfal
        · exact hne x hx hmem
        · simp at hfal
    have ih := importSessionsLoop_ok rest
      { db with sessions := db.sessions ++ [s] } hN' hF'
    simp only [importSessionsLoop, hstep, ih]
    simp

/-- The settings loop of `importData` never touches entries or sessions. -/
lemma importSettingsLoop_preserves :
    ∀ (kvs : List (String × SettingValue)) (db : DB),
      (importSettingsLoop kvs db).entries = db.entries ∧
      (importSettingsLoop kvs db).sessions = db.sessions
  | [], db => ⟨rfl, rfl⟩
  | (k, v) :: rest, db => by
    have ih := importSettingsLoop_preserves rest (db.putSetting k v)
    simpa [importSettingsLoop, DB.putSetting] using ih

/-- C5 (amended): `importData` persists records through the store's `add`,
not an upsert.  When every bundle id is fresh and the bundle has no internal
duplicates, the import succeeds and appends every entry and session to the
store exactly as the bundle encodes it — in particular no re-encryption
happens, each record's encryption state being preserved verbatim.  When a
bundle entry's id already exists in the store, the import fails with an
error instead of replacing the record. -/
theorem importData_add_semantics (bundle : ImportBundle) (db : DB) :
    ((bundle.entries.map (fun e => e.id)).Nodup →
     (∀ e ∈ bundle.entries, e.id ∉ db.entries.map (fun x => x.id)) →
     (bundle.sessions.map SessionRecord.id).Nodup →
     (∀ s ∈ bundle.sessions,
        SessionRecord.id s ∉ db.sessions.map SessionRecord.id) →
     (importData bundle db).2 = none ∧
     (importData bundle db).1.entries = db.entries ++ bundle.entries ∧
     (importData bundle db).1.sessions = db.sessions ++ bundle.sessions) ∧
    ((∃ e ∈ bundle.entries, e.id ∈ db.entries.map (fun x => x.id)) →
     (importData bundle db).2 ≠ none) := by
  constructor
  · intro heN heF hsN hsF
    have hE := importEntriesLoop_ok bundle.entries db heN heF
    have hS := importSessionsLoop_ok bundle.sessions
      { db with entries := db.entries ++ bundle.entries } hsN (by simpa using hsF)
    have hP := importSettingsLoop_preserves bundle.settings
      { db with entries := db.entries ++ bundle.entries,
                sessions := db.sessions ++ bundle.sessions }
    simp [importData, hE, hS, hP.1, hP.2]
  · intro hex
    have := importEntriesLoop_err bundle.entries db hex
    rcases hloop : importEntriesLoop bundle.entries db with ⟨db1, err⟩
    rcases err with _ | err
    · exact absurd (by simp [hloop]) this
    · simp [importData, hloop]

/-- C5 witness: the amended import theorem applied to a store with one
entry and a fresh two-entry, one-session bundle (one record of the bundle
being an encrypted entry, stored verbatim). -/
theorem importData_add_semantics_witness :
    (importData bundleFresh dbOnePlain).2 = none ∧
    (importData bundleFresh dbOnePlain).1.entries =
      dbOnePlain.entries ++ bundleFresh.entries ∧
    (importData bundleFresh dbOnePlain).1.sessions =
      dbOnePlain.sessions ++ bundleFresh.sessions :=
  (importData_add_semantics bundleFresh dbOnePlain).1
    (by decide) (by decide) (by decide) (by decide)

/-- `put` of a record whose key sits at a known position, with no earlier
record sharing the key: the record is replaced in place. -/
lemma putById_append_cons {α : Type} (getId : α → String) (x e : α)
    (pre post : List α) (hx : getId x = getId e)
    (hpre : getId e ∉ pre.map getId) :
    putById getId x (pre ++ e :: post) = pre ++ x :: post := by
  induction pre with
  | nil =>
    simp only [List.nil_append, putById]
    rw [if_pos (by rw [hx])]
  | cons y ys ih =>
    have hy : getId y ≠ getId x := by
      rw [hx]
      intro hc
      exact hpre (by simp [hc.symm])
    have hpre' : getId e ∉ ys.map getId := by
      intro hc
      exact hpre (by simp [hc])
    simp only [List.cons_append, putById, if_neg hy]
    exact congrArg (fun t => y :: t) (ih hpre')

/-- Successful decryption of an entry preserves its id. -/
lemma decryptJournalEntry_id {k : CryptoKey} {e d : JournalEntry}
    (h : decryptJournalEntry k e = .ok d) : d.id = e.id := by
  unfold decryptJournalEntry at h
  split at h
  · exact (congrArg (fun x => x.id) (Except.ok.inj h)).symm ▸ rfl
  · split at h
    · exact (congrArg (fun x => x.id) (Except.ok.inj h)).symm ▸ rfl
    · split at h
      · exact absurd h (by simp)
      · split at h
        · exact (congrArg (fun x => x.id) (Except.ok.inj h)).symm ▸ rfl
        · exact absurd h (by simp)

/-- The `disableEncryption` loop, characterized: processing a pending
suffix of the store either decrypts and commits every encrypted pending
entry in order, or stops at the first entry whose decryption fails, leaving
the entries already processed committed in their decrypted form and
everything from the failing entry on untouched.  Sessions and settings are
never touched by the loop. -/
lemma disableEncryptionLoop_spec (k : CryptoKey) :
    ∀ (pending : List JournalEntry) (db : DB) (pre : List JournalEntry),
      db.entries = pre ++ pending →
      (pending.map (fun e => e.id)).Nodup →
      (∀ e ∈ pending, e.id ∉ pre.map (fun x => x.id)) →
      ((disableEncryptionLoop k pending db).1.sessions = db.sessions ∧
       (disableEncryptionLoop k pending db).1.settings = db.settings) ∧
      (((disableEncryptionLoop k pending db).2 = none ∧
        (disableEncryptionLoop k pending db).1.entries =
          pre ++ pending.map (decryptCommit k)) ∨
       (∃ err l₁ e l₂, (disableEncryptionLoop k pending db).2 = some err ∧
         pending = l₁ ++ e :: l₂ ∧ e.encrypted = true ∧
         decryptJournalEntry k e = .error err ∧
         (disableEncryptionLoop k pending db).1.entries =
           pre ++ l₁.map (decryptCommit k) ++ e :: l₂))
  | [], db, pre, hdb, _, _ => by
    refine ⟨⟨rfl, rfl⟩, Or.inl ⟨rfl, ?_⟩⟩
    simpa using hdb
  | e :: rest, db, pre, hdb, hN, hF => by
    have hN2 := hN
    rw [List.map_cons, List.nodup_cons] at hN2
    have hne : ∀ x ∈ rest, x.id ≠ e.id := by
      intro x hx hxe
      exact hN2.1 (List.mem_map.mpr ⟨x, hx, hxe⟩)
    have heF : e.id ∉ pre.map (fun x => x.id) := hF e (by simp)
    by_cases henc : e.encrypted
    · rcases hdec : decryptJournalEntry k e with err | d
      · -- failure on `e`: the loop stops, committing nothing further
        refine ⟨⟨?_, ?_⟩, Or.inr ⟨err, [], e, rest, ?_, by simp, henc, hdec, ?_⟩⟩
        · simp [disableEncryptionLoop, henc, hdec]
        · simp [disableEncryptionLoop, henc, hdec]
        · simp [disableEncryptionLoop, henc, hdec]
        · simpa [disableEncryptionLoop, henc, hdec] using hdb
      · -- success on `e`: commit and continue
        have hdid : d.id = e.id := decryptJournalEntry_id hdec
        obtain ⟨d', hd'⟩ : ∃ x : JournalEntry, { d with encrypted := false } = x :=
          ⟨_, rfl⟩
        have hcommit : decryptCommit k e = d' := by
          simp [decryptCommit, henc, hdec, hd']
        have hdid2 : d'.id = e.id := by
          rw [← hd']
          simpa using hdid
        have hput : (db.updateEntry d').entries = pre ++ d' :: rest := by
          show putById (fun x => x.id) _ db.entries = _
          rw [hdb]
          exact putById_append_cons (fun x => x.id) d' e pre rest hdid2 heF
        have hF' : ∀ x ∈ rest, x.id ∉ (pre ++ [d']).map (fun y => y.id) := by
          intro x hx
          simp only [List.map_append, List.mem_append, List.map_cons,
            List.map_nil, List.mem_cons]
          rintro (hmem | hmem)
          · exact hF x (by simp [hx]) hmem
          · rcases hmem with hmem | hfal
            · rw [hdid2] at hmem
              exact hne x hx hmem
            · simp at hfal
        have ih := disableEncryptionLoop_spec k rest (db.updateEntry d')
          (pre ++ [d']) (by rw [hput]; simp) hN2.2 hF'
        have hsess : (db.updateEntry d').sessions = db.sessions := rfl
        have hsets : (db.updateEntry d').settings = db.settings := rfl
        have hstep : disableEncryptionLoop k (e :: rest) db =
            disableEncryptionLoop k rest (db.updateEntry d') := by
          simp [disableEncryptionLoop, henc, hdec, hd']
        rw [hstep]
        refine ⟨⟨ih.1.1.trans hsess, ih.1.2.trans hsets⟩, ?_⟩
        rcases ih.2 with ⟨hnone, hentries⟩ | ⟨err, l₁, e', l₂, herr, hsplit, henc', hdec', hentries⟩
        · refine Or.inl ⟨hnone, ?_⟩
          rw [hentries]
          simp [hcommit]
        · refine Or.inr ⟨err, e :: l₁, e', l₂, herr, by simp [hsplit], henc',
            hdec', ?_⟩
          rw [hentries]
          simp [hcommit]
    · -- already plaintext: skipped
      have hcommit : decryptCommit k e = e := by
        simp [decryptCommit, henc]
      have hF' : ∀ x ∈ rest, x.id ∉ (pre ++ [e]).map (fun x => x.id) := by
        intro x hx
        simp only [List.map_append, List.mem_append, List.map_cons,
          List.map_nil, List.mem_cons]
        rintro (hmem | hmem)
        · exact hF x (by simp [hx]) hmem
        · rcases hmem with hmem | hfal
          · exact hne x hx hmem
          · simp at hfal
      have ih := disableEncryptionLoop_spec k rest db (pre ++ [e])
        (by rw [hdb]; simp) hN2.2 hF'
      have hstep : disableEncryptionLoop k (e :: rest) db =
          disableEncryptionLoop k rest db := by
        simp [disableEncryptionLoop, henc]
      rw [hstep]
      refine ⟨ih.1, ?_⟩
      rcases ih.2 with ⟨hnone, hentries⟩ | ⟨err, l₁, e', l₂, herr, hsplit, henc', hdec', hentries⟩
      · refine Or.inl ⟨hnone, ?_⟩
        rw [hentries]
        simp [hcommit]
      · refine Or.inr ⟨err, e :: l₁, e', l₂, herr, by simp [hsplit], henc',
          hdec', ?_⟩
        rw [hentries]
        simp [hcommit]

/-- C2 (amended): on a store with distinct entry ids and an initialized
cipher manager, `disableEncryption` either decrypts every entry (committing
each `decryptCommit` image, clearing the manager and recording the setting),
or aborts at the first entry whose decryption fails: entries before the
failing one in store order remain committed in decrypted form, the failing
entry and everything after it are untouched, the manager keeps its key and
the setting is not rewritten.  It does not roll the committed prefix back,
so a failing call can leave the dataset partially decrypted. -/
theorem disableEncryption_first_failure_aborts (p : String) (db : DB)
    (k : CryptoKey) (hids : (db.entries.map (fun e => e.id)).Nodup) :
    ((disableEncryption p db (some k)).2.2 = none →
       (disableEncryption p db (some k)).2.1 = none ∧
       (disableEncryption p db (some k)).1.entries =
         db.entries.map (decryptCommit k) ∧
       (disableEncryption p db (some k)).1.settings =
         putKV ("encryptionEnabled") (.bool false) db.settings) ∧
    (∀ err, (disableEncryption p db (some k)).2.2 = some err →
       (disableEncryption p db (some k)).2.1 = some k ∧
       (disableEncryption p db (some k)).1.settings = db.settings ∧
       ∃ l₁ e l₂, db.entries = l₁ ++ e :: l₂ ∧ e.encrypted = true ∧
         decryptJournalEntry k e = .error err ∧
         (disableEncryption p db (some k)).1.entries =
           l₁.map (decryptCommit k) ++ e :: l₂) := by
  have hspec := disableEncryptionLoop_spec k db.entries db []
    (by simp) hids (by simp)
  rcases hspec with ⟨⟨hsess, hsets⟩, hres⟩
  rcases hres with ⟨hnone, hentries⟩ | ⟨err, l₁, e, l₂, herr, hsplit, henc, hdec, hentries⟩
  · constructor
    · intro _
      refine ⟨?_, ?_, ?_⟩
      · simp [disableEncryption, hnone]
      · rcases hL : disableEncryptionLoop k db.entries db with ⟨db1, err1⟩
        rw [hL] at hnone hentries
        simp at hnone hentries
        simp [disableEncryption, hL, hnone, DB.putSetting]
        simpa using hentries
      · rcases hL : disableEncryptionLoop k db.entries db with ⟨db1, err1⟩
        rw [hL] at hnone hsets
        simp at hnone hsets
        simp [disableEncryption, hL, hnone, DB.putSetting, hsets]
    · intro err2 herr2
      exfalso
      rcases hL : disableEncryptionLoop k db.entries db with ⟨db1, err1⟩
      rw [hL] at hnone
      simp at hnone
      rw [disableEncryption.eq_def] at herr2
      simp [hL, hnone] at herr2
  · constructor
    · intro hcontra
      exfalso
      rcases hL : disableEncryptionLoop k db.entries db with ⟨db1, err1⟩
      rw [hL] at herr
      simp at herr
      rw [disableEncryption.eq_def] at hcontra
      simp [hL, herr] at hcontra
    · intro err2 herr2
      rcases hL : disableEncryptionLoop k db.entries db with ⟨db1, err1⟩
      rw [hL] at herr hentries hsess hsets
      simp at herr hentries hsess hsets
      rw [disableEncryption.eq_def] at herr2
      simp [hL, herr] at herr2
      subst herr2
      refine ⟨?_, ?_, l₁, e, l₂, hsplit, henc, hdec, ?_⟩
      · simp [disableEncryption, hL, herr]
      · simp [disableEncryption, hL, herr, hsets]
      · simp [disableEncryption, hL, herr]
        simpa using hentries

/-- C2 witness: the amended theorem applied to a store whose single
ciphertext entry decrypts under the manager's key — the success branch
commits the decrypted entry, clears the manager and records the setting. -/
theorem disableEncryption_first_failure_aborts_witness :
    ((disableEncryption ("pw") dbOneCipher (some kPw)).2.2 = none →
       (disableEncryption ("pw") dbOneCipher (some kPw)).2.1 = none ∧
       (disableEncryption ("pw") dbOneCipher (some kPw)).1.entries =
         dbOneCipher.entries.map (decryptCommit kPw) ∧
       (disableEncryption ("pw") dbOneCipher (some kPw)).1.settings =
         putKV ("encryptionEnabled") (.bool false) dbOneCipher.settings) ∧
    (∀ err, (disableEncryption ("pw") dbOneCipher (some kPw)).2.2 = some err →
       (disableEncryption ("pw") dbOneCipher (some kPw)).2.1 = some kPw ∧
       (disableEncryption ("pw") dbOneCipher (some kPw)).1.settings =
         dbOneCipher.settings ∧
       ∃ l₁ e l₂, dbOneCipher.entries = l₁ ++ e :: l₂ ∧ e.encrypted = true ∧
         decryptJournalEntry kPw e = .error err ∧
         (disableEncryption ("pw") dbOneCipher (some kPw)).1.entries =
           l₁.map (decryptCommit kPw) ++ e :: l₂) :=
  disableEncryption_first_failure_aborts ("pw") dbOneCipher kPw (by decide)

/-- Inserting into a descending-sorted list is a permutation of consing. -/
lemma insertDesc_perm (x : Int) :
    ∀ l : List Int, List.Perm (insertDesc x l) (x :: l)
  | [] => by simp [insertDesc]
  | y :: ys => by
    by_cases h : x ≥ y
    · simp [insertDesc, h]
    · have h1 : insertDesc x (y :: ys) = y :: insertDesc x ys := by
        simp [insertDesc, h]
      rw [h1]
      exact ((insertDesc_perm x ys).cons y).trans (List.Perm.swap x y ys)

/-- `sortDesc` permutes its input. -/
lemma sortDesc_perm : ∀ l : List Int, List.Perm (sortDesc l) l
  | [] => by simp [sortDesc]
  | x :: xs =>
    ((insertDesc_perm x (sortDesc xs)).trans ((sortDesc_perm xs).cons x))

/-- Insertion preserves descending sortedness. -/
lemma insertDesc_sorted (x : Int) :
    ∀ l : List Int, l.Pairwise (· ≥ ·) → (insertDesc x l).Pairwise (· ≥ ·)
  | [], _ => by simp [insertDesc]
  | y :: ys, h => by
    rw [List.pairwise_cons] at h
    by_cases hxy : x ≥ y
    · rw [show insertDesc x (y :: ys) = x :: y :: ys by simp [insertDesc, hxy]]
      rw [List.pairwise_cons]
      refine ⟨?_, List.pairwise_cons.mpr h⟩
      intro a ha
      rcases List.mem_cons.mp ha with rfl | ha
      · exact hxy
      · exact le_trans (h.1 a ha) hxy
    · rw [show insertDesc x (y :: ys) = y :: insertDesc x ys by
        simp [insertDesc, hxy]]
      rw [List.pairwise_cons]
      refine ⟨?_, insertDesc_sorted x ys h.2⟩
      intro a ha
      have ha' := (insertDesc_perm x ys).mem_iff.mp ha
      rcases List.mem_cons.mp ha' with rfl | ha'
      · exact le_of_lt (lt_of_not_ge hxy)
      · exact h.1 a ha'

/-- `sortDesc` sorts descending. -/
lemma sortDesc_sorted : ∀ l : List Int, (sortDesc l).Pairwise (· ≥ ·)
  | [] => by simp [sortDesc]
  | x :: xs => insertDesc_sorted x (sortDesc xs) (sortDesc_sorted xs)

/-- A weakly descending list without duplicates is strictly descending. -/
lemma pairwise_ge_nodup_strict :
    ∀ l : List Int, l.Pairwise (· ≥ ·) → l.Nodup → l.Pairwise (· > ·)
  | [], _, _ => .nil
  | x :: xs, hge, hnd => by
    rw [List.pairwise_cons] at hge ⊢
    rw [List.nodup_cons] at hnd
    exact ⟨fun y hy => lt_of_le_of_ne (hge.1 y hy)
        (fun hyx => hnd.1 (hyx ▸ hy)),
      pairwise_ge_nodup_strict xs hge.2 hnd.2⟩

/-- `countDown` only consults membership, so it ignores a head strictly
above its starting day. -/
lemma countDown_cons_lt (d : Int) (rest : List Int) :
    ∀ (fuel : Nat) (p : Int), p < d →
      countDown (d :: rest) fuel p = countDown rest fuel p
  | 0, _, _ => rfl
  | fuel + 1, p, hp => by
    have hmem : ((p ∈ d :: rest) : Prop) ↔ p ∈ rest := by
      simp only [List.mem_cons, or_iff_right_iff_imp]
      intro hpd
      exact absurd hpd (ne_of_lt hp)
    by_cases h : p ∈ rest
    · rw [countDown, countDown, if_pos (by simp [hasDay, hmem, h]),
        if_pos (by simp [hasDay, h]),
        countDown_cons_lt d rest fuel (p - 1) (by omega)]
    · rw [countDown, countDown, if_neg (by simp [hasDay, hmem, h]),
        if_neg (by simp [hasDay, h])]

/-- `countDown` is determined by the membership predicate of its day list. -/
lemma countDown_congr (D1 D2 : List Int)
    (hmem : ∀ x : Int, x ∈ D1 ↔ x ∈ D2) :
    ∀ (fuel : Nat) (p : Int), countDown D1 fuel p = countDown D2 fuel p
  | 0, _ => rfl
  | fuel + 1, p => by
    by_cases h : p ∈ D1
    · rw [countDown, countDown, if_pos (by simp [hasDay, h]),
        if_pos (by simp [hasDay, (hmem p).mp h]),
        countDown_congr D1 D2 hmem fuel (p - 1)]
    · rw [countDown, countDown, if_neg (by simp [hasDay, h]),
        if_neg (by simp [hasDay, (hmem p).not.mp h])]

/-- The code's walk down a strictly descending day list, starting from a
day strictly above every listed day, counts exactly the consecutive run
that the spec's membership walk counts from one day below the start. -/
lemma streakLoop_eq_countDown :
    ∀ (fuel : Nat) (D : List Int) (cur : Int), D.Pairwise (· > ·) →
      (∀ d ∈ D, d < cur) → D.length ≤ fuel →
      streakLoop cur D = countDown D fuel (cur - 1)
  | 0, D, cur, _, _, hlen => by
    rw [List.length_eq_zero.mp (Nat.le_zero.mp hlen)]
    rfl
  | fuel + 1, [], cur, _, _, _ => by
    rw [streakLoop, countDown, if_neg (by simp [hasDay])]
  | fuel + 1, d :: rest, cur, hsort, hlt, hlen => by
    rw [List.pairwise_cons] at hsort
    have hd : d < cur := hlt d (by simp)
    by_cases hde : d = cur - 1
    · have hmem : ((cur - 1) ∈ d :: rest : Prop) := by simp [hde]
      have hcur2 : cur - 1 - 1 = cur - 2 := by omega
      rw [streakLoop, if_pos (by omega), countDown,
        if_pos (by simp [hasDay, hmem])]
      have hbridge := streakLoop_eq_countDown fuel rest d hsort.2
        (fun x hx => hsort.1 x hx) (by simpa using hlen)
      rw [hbridge, hde, countDown_cons_lt (cur - 1) rest fuel (cur - 1 - 1)
        (by omega)]
    · have hmem : ¬ ((cur - 1) ∈ d :: rest : Prop) := by
        simp only [List.mem_cons]
        rintro (hc | hc)
        · exact hde hc.symm
        · have := hsort.1 _ hc
          omega
      rw [streakLoop, if_neg (by omega), countDown,
        if_neg (by simp [hasDay, hmem])]

/-- With no future-dated entry, the code's streak equals the spec's
backward walk from today. -/
lemma calculateWritingStreak_eq_spec (today : Int)
    (entries : List JournalEntry)
    (hfut : ∀ e ∈ entries, dayOf e ≤ today) :
    calculateWritingStreak today entries = specWritingStreak today entries := by
  rcases hE : entries with _ | ⟨e0, erest⟩
  · rfl
  rw [← hE]
  have hne : entries ≠ [] := by rw [hE]; simp
  have hdays : ∀ x ∈ (entries.map dayOf).dedup, x ≤ today := by
    intro x hx
    rcases List.mem_map.mp (List.mem_dedup.mp hx) with ⟨e, he, rfl⟩
    exact hfut e he
  have hperm : List.Perm (sortDesc ((entries.map dayOf).dedup))
      ((entries.map dayOf).dedup) := sortDesc_perm _
  have hnd : (sortDesc ((entries.map dayOf).dedup)).Nodup :=
    hperm.nodup_iff.mpr (List.nodup_dedup _)
  have hsort : (sortDesc ((entries.map dayOf).dedup)).Pairwise (· > ·) :=
    pairwise_ge_nodup_strict _ (sortDesc_sorted _) hnd
  have hmem : ∀ x : Int, x ∈ sortDesc ((entries.map dayOf).dedup) ↔
      x ∈ (entries.map dayOf).dedup := fun x => hperm.mem_iff
  have hlen : (sortDesc ((entries.map dayOf).dedup)).length =
      ((entries.map dayOf).dedup).length := hperm.length_eq
  have hcalc : calculateWritingStreak today entries =
      streakLoop today (sortDesc ((entries.map dayOf).dedup)) := by
    rw [calculateWritingStreak, if_neg (by simpa using hne)]
  rw [hcalc]
  show streakLoop today (sortDesc ((entries.map dayOf).dedup)) =
    (if hasDay ((entries.map dayOf).dedup) today then
      1 + countDown ((entries.map dayOf).dedup)
        ((entries.map dayOf).dedup).length (today - 1)
     else if hasDay ((entries.map dayOf).dedup) (today - 1) then
      1 + countDown ((entries.map dayOf).dedup)
        ((entries.map dayOf).dedup).length (today - 2)
     else 0)
  have key : ∀ D : List Int, D.Pairwise (· > ·) →
      (∀ x : Int, (x ∈ D) ↔ x ∈ (entries.map dayOf).dedup) →
      D.length = ((entries.map dayOf).dedup).length →
      streakLoop today D =
        (if hasDay ((entries.map dayOf).dedup) today then
          1 + countDown ((entries.map dayOf).dedup)
            ((entries.map dayOf).dedup).length (today - 1)
         else if hasDay ((entries.map dayOf).dedup) (today - 1) then
          1 + countDown ((entries.map dayOf).dedup)
            ((entries.map dayOf).dedup).length (today - 2)
         else 0) := by
    intro D hsorted hmemD hlenD
    rcases D with _ | ⟨d, rest⟩
    · have hno : ∀ x : Int, x ∈ (entries.map dayOf).dedup → False :=
        fun x hx => by simpa using (hmemD x).mpr hx
      have h1 : hasDay ((entries.map dayOf).dedup) today = false := by
        simp only [hasDay, decide_eq_false_iff_not]
        exact fun h => hno _ h
      have h2 : hasDay ((entries.map dayOf).dedup) (today - 1) = false := by
        simp only [hasDay, decide_eq_false_iff_not]
        exact fun h => hno _ h
      simp [streakLoop, h1, h2]
    · rw [List.pairwise_cons] at hsorted
      have hd_le : d ≤ today := by
        have := hdays d ((hmemD d).mp (by simp))
        omega
      have hrest_lt : ∀ x ∈ rest, x < d := fun x hx => hsorted.1 x hx
      have hfuel : rest.length + 1 = ((entries.map dayOf).dedup).length := by
        simpa using hlenD
      by_cases hd1 : d = today
      · subst hd1
        have hcT : hasDay ((entries.map dayOf).dedup) d = true := by
          simp only [hasDay, decide_eq_true_eq]
          exact (hmemD d).mp (by simp)
        have hbridge := streakLoop_eq_countDown
          ((entries.map dayOf).dedup).length rest d hsorted.2 hrest_lt
          (by omega)
        have hcd : countDown ((entries.map dayOf).dedup)
            ((entries.map dayOf).dedup).length (d - 1) =
            countDown rest ((entries.map dayOf).dedup).length (d - 1) := by
          rw [countDown_congr ((entries.map dayOf).dedup) (d :: rest)
            (fun x => (hmemD x).symm)]
          exact countDown_cons_lt d rest _ (d - 1) (by omega)
        rw [streakLoop, if_pos (by omega), if_pos hcT, hbridge, hcd]
      · by_cases hd2 : d = today - 1
        · subst hd2
          have hnoT : ¬ (today ∈ (entries.map dayOf).dedup) := by
            intro h
            rcases List.mem_cons.mp ((hmemD today).mpr h) with h1 | h1
            · omega
            · have := hrest_lt _ h1
              omega
          have hcY : hasDay ((entries.map dayOf).dedup) (today - 1) = true := by
            simp only [hasDay, decide_eq_true_eq]
            exact (hmemD (today - 1)).mp (by simp)
          have hbridge := streakLoop_eq_countDown
            ((entries.map dayOf).dedup).length rest (today - 1) hsorted.2
            hrest_lt (by omega)
          have hsub : today - 1 - 1 = today - 2 := by omega
          have hcd : countDown ((entries.map dayOf).dedup)
              ((entries.map dayOf).dedup).length (today - 2) =
              countDown rest ((entries.map dayOf).dedup).length (today - 2) := by
            rw [countDown_congr ((entries.map dayOf).dedup)
              ((today - 1) :: rest) (fun x => (hmemD x).symm)]
            exact countDown_cons_lt (today - 1) rest _ (today - 2) (by omega)
          rw [streakLoop, if_pos (by omega),
            if_neg (by simp [hasDay, hnoT]), if_pos hcY, hbridge, hsub, hcd]
        · have hnoT : ¬ (today ∈ (entries.map dayOf).dedup) := by
            intro h
            rcases List.mem_cons.mp ((hmemD today).mpr h) with h1 | h1
            · omega
            · have := hrest_lt _ h1
              omega
          have hnoY : ¬ ((today - 1) ∈ (entries.map dayOf).dedup) := by
            intro h
            rcases List.mem_cons.mp ((hmemD (today - 1)).mpr h) with h1 | h1
            · omega
            · have := hrest_lt _ h1
              omega
          rw [streakLoop, if_neg (by omega),
            if_neg (by simp [hasDay, hnoT]), if_neg (by simp [hasDay, hnoY])]
  exact key (sortDesc ((entries.map dayOf).dedup)) hsort hmem hlen

/-- C9 (amended): whenever no entry is dated after today, the code's
writing streak equals the spec's count of consecutive calendar days with at
least one entry, walking backward from today and stopping at the first gap
greater than 1 day; in particular entries on days
{today, today−1, today−3} yield a streak of exactly 2.  (With a
future-dated entry the code's walk instead starts at the future-most day
and can stop early — see the counterexample.) -/
theorem writing_streak_matches_spec_without_future (today : Int)
    (entries : List JournalEntry)
    (hfut : ∀ e ∈ entries, dayOf e ≤ today) :
    calculateWritingStreak today entries = specWritingStreak today entries ∧
    calculateWritingStreak 0 streakScenarioEntries = 2 ∧
    specWritingStreak 0 streakScenarioEntries = 2 :=
  ⟨calculateWritingStreak_eq_spec today entries hfut, by decide, by decide⟩

/-- C9 witness: the streak theorem applied to the scenario entry set
{today, today−1, today−3} at `today = 0`, whose days are all ≤ 0. -/
theorem writing_streak_matches_spec_without_future_witness :
    calculateWritingStreak 0 streakScenarioEntries =
      specWritingStreak 0 streakScenarioEntries ∧
    calculateWritingStreak 0 streakScenarioEntries = 2 ∧
    specWritingStreak 0 streakScenarioEntries = 2 :=
  writing_streak_matches_spec_without_future 0 streakScenarioEntries
    (by decide)

/-- `canMakeAPIRequest` never moves the window's reset time backward. -/
lemma canMakeAPIRequest_resetTime_le (st : RateLimitState) (now : Int) :
    st.resetTime ≤ ((canMakeAPIRequest st now).2).resetTime := by
  rw [canMakeAPIRequest]
  split
  · show st.resetTime ≤ now + 60 * 1000
    omega
  · exact le_rfl

/-- Every remote attempt of a run is admitted into a window no older than
the starting state's. -/
lemma performAnalysisSeq_window_ge :
    ∀ (reqs : List RemoteRequest) (st : RateLimitState) (a : RemoteAttempt),
      a ∈ (performAnalysisSeq st reqs).1 → st.resetTime ≤ a.windowReset
  | [], _, _, ha => by simp [performAnalysisSeq] at ha
  | r :: rest, st, a, ha => by
    have hle := canMakeAPIRequest_resetTime_le st r.arrival
    simp only [performAnalysisSeq] at ha
    by_cases hok : (canMakeAPIRequest st r.arrival).1
    · rw [if_pos hok] at ha
      by_cases hs : r.succeeds
      · rw [if_pos hs] at ha
        rcases List.mem_cons.mp ha with rfl | ha
        · exact hle
        · have := performAnalysisSeq_window_ge rest
            (updateRateLimitState (canMakeAPIRequest st r.arrival).2
              r.completion) a ha
          simp only [updateRateLimitState] at this
          omega
      · rw [if_neg hs] at ha
        rcases List.mem_cons.mp ha with rfl | ha
        · exact hle
        · have := performAnalysisSeq_window_ge rest
            (canMakeAPIRequest st r.arrival).2 a ha
          omega
    · rw [if_neg hok] at ha
      have := performAnalysisSeq_window_ge rest
        (canMakeAPIRequest st r.arrival).2 a ha
      omega

/-- At most `3 − requestCount` further successful remote calls can be
admitted into the current window, and at most 3 into any other window:
`canMakeAPIRequest` admits a call only while `requestCount < 3`, and only a
successful call increments the counter. -/
lemma performAnalysisSeq_success_bound :
    ∀ (reqs : List RemoteRequest) (st : RateLimitState) (R : Int),
      st.requestCount ≤ 3 →
      (performAnalysisSeq st reqs).1.countP
          (fun a => a.succeeded && decide (a.windowReset = R)) ≤
        (if st.resetTime = R then 3 - st.requestCount else 3)
  | [], st, R, _ => by
    simp only [performAnalysisSeq, List.countP_nil]
    split <;> omega
  | r :: rest, ⟨lt, rc, rt⟩, R, hcnt => by
    simp only [RateLimitState.requestCount] at hcnt
    show (performAnalysisSeq ⟨lt, rc, rt⟩ (r :: rest)).1.countP
        (fun a => a.succeeded && decide (a.windowReset = R)) ≤
      (if rt = R then 3 - rc else 3)
    by_cases hr : r.arrival > rt
    · -- the window has lapsed: `canMakeAPIRequest` resets it
      have hc : canMakeAPIRequest ⟨lt, rc, rt⟩ r.arrival =
          (true, ⟨lt, 0, r.arrival + 60 * 1000⟩) := by
        simp [canMakeAPIRequest, hr]
      by_cases hs : r.succeeds
      · -- successful remote call in the fresh window
        have hshape : (performAnalysisSeq ⟨lt, rc, rt⟩ (r :: rest)).1 =
            ⟨r.arrival, r.arrival + 60 * 1000, true⟩ ::
              (performAnalysisSeq ⟨r.completion, 1, r.arrival + 60 * 1000⟩
                rest).1 := by
          simp only [performAnalysisSeq, hc, if_true, if_pos hs]
          try rfl
        have ih := performAnalysisSeq_success_bound rest
          ⟨r.completion, 1, r.arrival + 60 * 1000⟩ R
          (by show (1 : Nat) ≤ 3; omega)
        have ih2 : (performAnalysisSeq
            ⟨r.completion, 1, r.arrival + 60 * 1000⟩ rest).1.countP
            (fun a => a.succeeded && decide (a.windowReset = R)) ≤
            (if r.arrival + 60 * 1000 = R then 2 else 3) := by
          refine le_trans ih (le_of_eq ?_)
          show (if r.arrival + 60 * 1000 = R then 3 - 1 else 3) = _
          split <;> rfl
        rw [hshape, List.countP_cons]
        by_cases hR : r.arrival + 60 * 1000 = R
        · have hne : ¬ (rt = R) := by omega
          have hh : (fun a : RemoteAttempt =>
              a.succeeded && decide (a.windowReset = R))
                ⟨r.arrival, r.arrival + 60 * 1000, true⟩ = true := by
            simp
            omega
          rw [if_neg hne, if_pos hh, if_pos hR] at *
          omega
        · have hh : ¬ ((fun a : RemoteAttempt =>
              a.succeeded && decide (a.windowReset = R))
                ⟨r.arrival, r.arrival + 60 * 1000, true⟩ = true) := by
            simp
            omega
          rw [if_neg hh, if_neg hR] at *
          by_cases hRst : rt = R
          · have hzero : (performAnalysisSeq
                ⟨r.completion, 1, r.arrival + 60 * 1000⟩ rest).1.countP
                (fun a => a.succeeded && decide (a.windowReset = R)) = 0 := by
              rw [List.countP_eq_zero]
              intro a ha hpa
              have hwge := performAnalysisSeq_window_ge rest
                ⟨r.completion, 1, r.arrival + 60 * 1000⟩ a ha
              simp only [RateLimitState.resetTime] at hwge
              have ha2 : a.windowReset = R := by
                simp only [Bool.and_eq_true, decide_eq_true_eq] at hpa
                exact hpa.2
              omega
            rw [hzero]
            split <;> omega
          · rw [if_neg hRst]
            omega
      · -- failed remote attempt in the fresh window: counter untouched
        have hshape : (performAnalysisSeq ⟨lt, rc, rt⟩ (r :: rest)).1 =
            ⟨r.arrival, r.arrival + 60 * 1000, false⟩ ::
              (performAnalysisSeq ⟨lt, 0, r.arrival + 60 * 1000⟩ rest).1 := by
          simp only [performAnalysisSeq, hc, if_true, if_neg hs]
          try rfl
        have ih := performAnalysisSeq_success_bound rest
          ⟨lt, 0, r.arrival + 60 * 1000⟩ R (by show (0 : Nat) ≤ 3; omega)
        have ih2 : (performAnalysisSeq ⟨lt, 0, r.arrival + 60 * 1000⟩
            rest).1.countP
            (fun a => a.succeeded && decide (a.windowReset = R)) ≤
            (if r.arrival + 60 * 1000 = R then 3 else 3) := by
          refine le_trans ih (le_of_eq ?_)
          show (if r.arrival + 60 * 1000 = R then 3 - 0 else 3) = _
          split <;> rfl
        have hh : ¬ ((fun a : RemoteAttempt =>
            a.succeeded && decide (a.windowReset = R))
              ⟨r.arrival, r.arrival + 60 * 1000, false⟩ = true) := by
          simp
        rw [hshape, List.countP_cons, if_neg hh]
        by_cases hRst : rt = R
        · have hzero : (performAnalysisSeq ⟨lt, 0, r.arrival + 60 * 1000⟩
              rest).1.countP
              (fun a => a.succeeded && decide (a.windowReset = R)) = 0 := by
            rw [List.countP_eq_zero]
            intro a ha hpa
            have hwge := performAnalysisSeq_window_ge rest
              ⟨lt, 0, r.arrival + 60 * 1000⟩ a ha
            simp only [RateLimitState.resetTime] at hwge
            have ha2 : a.windowReset = R := by
              simp only [Bool.and_eq_true, decide_eq_true_eq] at hpa
              exact hpa.2
            omega
          rw [hzero]
          split <;> omega
        · rw [if_neg hRst]
          have h3 : (performAnalysisSeq ⟨lt, 0, r.arrival + 60 * 1000⟩
              rest).1.countP
              (fun a => a.succeeded && decide (a.windowReset = R)) ≤ 3 := by
            refine le_trans ih2 ?_
            split <;> omega
          omega
    · -- still inside the current window
      have hc : canMakeAPIRequest ⟨lt, rc, rt⟩ r.arrival =
          (decide (rc < 3), ⟨lt, rc, rt⟩) := by
        simp [canMakeAPIRequest, hr]
      by_cases hok : rc < 3
      · by_cases hs : r.succeeds
        · have hshape : (performAnalysisSeq ⟨lt, rc, rt⟩ (r :: rest)).1 =
              ⟨r.arrival, rt, true⟩ ::
                (performAnalysisSeq ⟨r.completion, rc + 1, rt⟩ rest).1 := by
            simp only [performAnalysisSeq, hc]
            rw [if_pos (show decide (rc < 3) = true from by simpa using hok)]
            rw [if_pos hs]
            rfl
          have ih := performAnalysisSeq_success_bound rest
            ⟨r.completion, rc + 1, rt⟩ R (by show rc + 1 ≤ 3; omega)
          have ih2 : (performAnalysisSeq ⟨r.completion, rc + 1, rt⟩
              rest).1.countP
              (fun a => a.succeeded && decide (a.windowReset = R)) ≤
              (if rt = R then 3 - (rc + 1) else 3) := ih
          rw [hshape, List.countP_cons]
          by_cases hR : rt = R
          · have hh : (fun a : RemoteAttempt =>
                a.succeeded && decide (a.windowReset = R))
                  ⟨r.arrival, rt, true⟩ = true := by
              simp
              omega
            rw [if_pos hh, if_pos hR] at *
            omega
          · have hh : ¬ ((fun a : RemoteAttempt =>
                a.succeeded && decide (a.windowReset = R))
                  ⟨r.arrival, rt, true⟩ = true) := by
              simp
              omega
            rw [if_neg hh, if_neg hR] at *
            omega
        · have hshape : (performAnalysisSeq ⟨lt, rc, rt⟩ (r :: rest)).1 =
              ⟨r.arrival, rt, false⟩ ::
                (performAnalysisSeq ⟨lt, rc, rt⟩ rest).1 := by
            simp only [performAnalysisSeq, hc]
            rw [if_pos (show decide (rc < 3) = true from by simpa using hok)]
            rw [if_neg hs]
          have ih := performAnalysisSeq_success_bound rest ⟨lt, rc, rt⟩ R
            (by show rc ≤ 3; omega)
          have hh : ¬ ((fun a : RemoteAttempt =>
              a.succeeded && decide (a.windowReset = R))
                ⟨r.arrival, rt, false⟩ = true) := by
            simp
          rw [hshape, List.countP_cons, if_neg hh]
          have ih2 : (performAnalysisSeq ⟨lt, rc, rt⟩ rest).1.countP
              (fun a => a.succeeded && decide (a.windowReset = R)) ≤
              (if rt = R then 3 - rc else 3) := ih
          omega
      · have hshape : (performAnalysisSeq ⟨lt, rc, rt⟩ (r :: rest)).1 =
            (performAnalysisSeq ⟨lt, rc, rt⟩ rest).1 := by
          simp only [performAnalysisSeq, hc]
          rw [if_neg (show ¬ (decide (rc < 3) = true) from by simpa using hok)]
        have ih := performAnalysisSeq_success_bound rest ⟨lt, rc, rt⟩ R
          (by show rc ≤ 3; omega)
        rw [hshape]
        exact ih

/-- C8 (amended): the limiter bounds *successful* remote calls — in every
sequential (non-overlapping) run from process start, at most 3 remote calls
that complete successfully are admitted into any one 60-second window,
because `updateRateLimitState` runs only after a successful response; and
four sentiment cache misses within 10 seconds whose remote calls succeed
issue exactly 3 remote attempts, the 4th request resolving via the local
heuristic.  (Failed attempts never increment the counter, so more than 3
remote *attempts* can be issued in a window — see the counterexample.) -/
theorem rate_limiter_bounds_successful_calls :
    (∀ (reqs : List RemoteRequest) (R : Int),
       (performAnalysisSeq initRateLimitState reqs).1.countP
         (fun a => a.succeeded && decide (a.windowReset = R)) ≤ 3) ∧
    (performAnalysisSeq initRateLimitState fourOkRequests).1.length = 3 ∧
    (performAnalysisSeq initRateLimitState fourOkRequests).2 =
      [.remoteSuccess, .remoteSuccess, .remoteSuccess, .localOnly] ∧
    (∀ a ∈ (performAnalysisSeq initRateLimitState fourOkRequests).1,
       a.windowReset = 61000 ∧ 1000 ≤ a.time ∧ a.time ≤ 7000) := by
  refine ⟨fun reqs R => ?_, by decide, by decide, by decide⟩
  have h := performAnalysisSeq_success_bound reqs initRateLimitState R
    (by simp [initRateLimitState])
  refine le_trans h ?_
  split <;> simp [initRateLimitState]

/-- Stable insertion by `createdAt` permutes consing. -/
lemma insertByCreatedAt_perm (x : JournalEntry) :
    ∀ l : List JournalEntry, List.Perm (insertByCreatedAt x l) (x :: l)
  | [] => by simp [insertByCreatedAt]
  | y :: ys => by
    by_cases h : y.createdAt ≤ x.createdAt
    · have h1 : insertByCreatedAt x (y :: ys) = y :: insertByCreatedAt x ys := by
        simp [insertByCreatedAt, h]
      rw [h1]
      exact ((insertByCreatedAt_perm x ys).cons y).trans (List.Perm.swap x y ys)
    · simp [insertByCreatedAt, h]

/-- The sorting fold permutes its input. -/
lemma foldl_insertByCreatedAt_perm :
    ∀ (l acc : List JournalEntry),
      List.Perm (l.foldl (fun a x => insertByCreatedAt x a) acc) (l ++ acc)
  | [], acc => by simp
  | x :: l, acc => by
    rw [List.foldl_cons]
    refine (foldl_insertByCreatedAt_perm l (insertByCreatedAt x acc)).trans ?_
    refine (List.Perm.append_left l (insertByCreatedAt_perm x acc)).trans ?_
    exact List.perm_middle

/-- `sortByCreatedAt` permutes its input. -/
lemma sortByCreatedAt_perm (l : List JournalEntry) :
    List.Perm (sortByCreatedAt l) l := by
  have h := foldl_insertByCreatedAt_perm l []
  simpa [sortByCreatedAt] using h

/-- Insertion preserves sortedness by `createdAt`. -/
lemma insertByCreatedAt_sorted (x : JournalEntry) :
    ∀ l : List JournalEntry,
      l.Pairwise (fun a b => a.createdAt ≤ b.createdAt) →
      (insertByCreatedAt x l).Pairwise (fun a b => a.createdAt ≤ b.createdAt)
  | [], _ => by simp [insertByCreatedAt]
  | y :: ys, h => by
    rw [List.pairwise_cons] at h
    by_cases hxy : y.createdAt ≤ x.createdAt
    · rw [show insertByCreatedAt x (y :: ys) = y :: insertByCreatedAt x ys
        from by simp [insertByCreatedAt, hxy]]
      rw [List.pairwise_cons]
      refine ⟨?_, insertByCreatedAt_sorted x ys h.2⟩
      intro a ha
      rcases List.mem_cons.mp ((insertByCreatedAt_perm x ys).mem_iff.mp ha)
        with rfl | ha'
      · exact hxy
      · exact h.1 a ha'
    · rw [show insertByCreatedAt x (y :: ys) = x :: y :: ys
        from by simp [insertByCreatedAt, hxy]]
      rw [List.pairwise_cons]
      constructor
      · intro a ha
        rcases List.mem_cons.mp ha with rfl | ha'
        · exact le_of_lt (not_le.mp hxy)
        · exact le_trans (le_of_lt (not_le.mp hxy)) (h.1 a ha')
      · exact List.pairwise_cons.mpr h

/-- `sortByCreatedAt` sorts ascending by `createdAt`. -/
lemma sortByCreatedAt_sorted (l : List JournalEntry) :
    (sortByCreatedAt l).Pairwise (fun a b => a.createdAt ≤ b.createdAt) := by
  suffices h : ∀ (l acc : List JournalEntry),
      acc.Pairwise (fun a b => a.createdAt ≤ b.createdAt) →
      (l.foldl (fun a x => insertByCreatedAt x a) acc).Pairwise
        (fun a b => a.createdAt ≤ b.createdAt) from h l [] (by simp)
  intro l
  induction l with
  | nil => intro acc h; simpa using h
  | cons x xs ih =>
    intro acc h
    rw [List.foldl_cons]
    exact ih _ (insertByCreatedAt_sorted x acc h)

/-- The head of the sorted group has the earliest `createdAt`. -/
lemma sortByCreatedAt_head_min (g : List JournalEntry) (h : JournalEntry)
    (t : List JournalEntry) (hsrt : sortByCreatedAt g = h :: t) :
    ∀ x ∈ g, h.createdAt ≤ x.createdAt := by
  intro x hx
  have hx' : x ∈ h :: t := by
    rw [← hsrt]
    exact (sortByCreatedAt_perm g).mem_iff.mpr hx
  have hsorted := sortByCreatedAt_sorted g
  rw [hsrt, List.pairwise_cons] at hsorted
  rcases List.mem_cons.mp hx' with rfl | hx''
  · exact le_refl _
  · exact hsorted.1 x hx''

/-- Deleting a set of ids filters the entries and touches nothing else. -/
lemma deleteEntries_spec :
    ∀ (ids : List String) (db : DB),
      (deleteEntries db ids).entries =
        db.entries.filter (fun e => decide (e.id ∉ ids)) ∧
      (deleteEntries db ids).sessions = db.sessions ∧
      (deleteEntries db ids).settings = db.settings
  | [], db => by
    refine ⟨?_, rfl, rfl⟩
    simp [deleteEntries]
  | i :: ids, db => by
    have ih := deleteEntries_spec ids (db.deleteEntry i)
    have hstep : deleteEntries db (i :: ids) =
        deleteEntries (db.deleteEntry i) ids := rfl
    refine ⟨?_, ?_, ?_⟩
    · rw [hstep, ih.1]
      show (db.entries.filter (fun e => e.id ≠ i)).filter
          (fun e => decide (e.id ∉ ids)) = _
      rw [List.filter_filter]
      refine List.filter_congr ?_
      intro e _
      by_cases h1 : e.id = i <;> by_cases h2 : e.id ∈ ids <;>
        simp [h1, h2]
    · rw [hstep, ih.2.1]
      rfl
    · rw [hstep, ih.2.2]
      rfl

/-- Membership in a group of `entryGroups`. -/
lemma mem_entryGroups {es : List JournalEntry} {k : String × Int}
    {g : List JournalEntry} :
    (k, g) ∈ entryGroups es ↔
      k ∈ (es.map dupKey).dedup ∧
      g = es.filter (fun e => dupKey e = k) := by
  unfold entryGroups
  rw [List.mem_map]
  constructor
  · rintro ⟨k', hk', heq⟩
    obtain ⟨h1, h2⟩ := Prod.mk.inj heq
    subst h1
    exact ⟨hk', h2.symm⟩
  · rintro ⟨hk, rfl⟩
    exact ⟨k, hk, rfl⟩

/-- Every stored entry determines a group of `entryGroups`. -/
lemma group_of_mem {es : List JournalEntry} {e : JournalEntry}
    (he : e ∈ es) :
    (dupKey e, es.filter (fun x => dupKey x = dupKey e)) ∈ entryGroups es :=
  mem_entryGroups.mpr
    ⟨List.mem_dedup.mpr (List.mem_map.mpr ⟨e, he, rfl⟩), rfl⟩

/-- Membership in the removal set of `cleanupDuplicateEntries`. -/
lemma mem_entriesToRemove {es : List JournalEntry} {x : String} :
    x ∈ entriesToRemove es ↔
      ∃ k g, (k, g) ∈ entryGroups es ∧ g.length > 1 ∧
        ∃ e' ∈ (sortByCreatedAt g).drop 1, e'.id = x := by
  unfold entriesToRemove
  rw [List.mem_flatMap]
  constructor
  · rintro ⟨p, hp, hx⟩
    rcases List.mem_map.mp hp with ⟨⟨k, g⟩, hkg, rfl⟩
    by_cases hlen : g.length > 1
    · refine ⟨k, g, hkg, hlen, ?_⟩
      unfold groupKeepRemove at hx
      rw [if_pos hlen] at hx
      simp only [] at hx
      rcases List.mem_map.mp hx with ⟨e', he', rfl⟩
      exact ⟨e', he', rfl⟩
    · unfold groupKeepRemove at hx
      rw [if_neg hlen] at hx
      simp at hx
  · rintro ⟨k, g, hkg, hlen, e', he', rfl⟩
    refine ⟨groupKeepRemove g, List.mem_map.mpr ⟨(k, g), hkg, rfl⟩, ?_⟩
    unfold groupKeepRemove
    rw [if_pos hlen]
    exact List.mem_map.mpr ⟨e', he', rfl⟩

/-- C4 (amended): on a store with distinct entry ids, `cleanupDuplicates`
groups entries by (rendered content, timestamp) where *every encrypted
entry renders as the fixed bucket string* `[encrypted]`; within each group
with more than one member — including groups of encrypted entries sharing a
timestamp — it keeps the member with the earliest `createdAt` and deletes
the rest: survivors are a subset of the store, every entry has a surviving
group representative with a `createdAt` no later than its own, and no two
distinct survivors share a duplicate key.  Scenario C (two plaintext `ok`
entries with equal timestamps, createdAt 1 < 2) keeps exactly `t1`. -/
theorem cleanup_keeps_unique_earliest_per_key (db : DB)
    (hids : (db.entries.map (fun e => e.id)).Nodup) :
    (∀ e ∈ (cleanupDuplicateEntries db).1.entries, e ∈ db.entries) ∧
    (∀ e ∈ db.entries, ∃ e' ∈ (cleanupDuplicateEntries db).1.entries,
       dupKey e' = dupKey e ∧ e'.createdAt ≤ e.createdAt) ∧
    (∀ e₁ ∈ (cleanupDuplicateEntries db).1.entries,
     ∀ e₂ ∈ (cleanupDuplicateEntries db).1.entries,
       dupKey e₁ = dupKey e₂ → e₁ = e₂) ∧
    (cleanupDuplicateEntries dbScenarioC).1.entries.map (fun e => e.id) =
      ["t1"] ∧
    (cleanupDuplicateEntries dbScenarioC).2.1 = 1 := by
  have hES : (cleanupDuplicateEntries db).1.entries =
      db.entries.filter
        (fun e => decide (e.id ∉ entriesToRemove db.entries)) := by
    show (deleteEntries db (entriesToRemove db.entries)).entries = _
    exact (deleteEntries_spec (entriesToRemove db.entries) db).1
  have hnd : db.entries.Nodup := List.Nodup.of_map _ hids
  have hinj := List.inj_on_of_nodup_map hids
  have hremElim : ∀ e ∈ db.entries, e.id ∈ entriesToRemove db.entries →
      (db.entries.filter (fun x => dupKey x = dupKey e)).length > 1 ∧
      e ∈ (sortByCreatedAt
        (db.entries.filter (fun x => dupKey x = dupKey e))).drop 1 := by
    intro e he hmem
    rcases mem_entriesToRemove.mp hmem with ⟨k, g, hkg, hlen, e', he', hid⟩
    rcases mem_entryGroups.mp hkg with ⟨hk, hg⟩
    subst hg
    have he'mem : e' ∈ sortByCreatedAt
        (db.entries.filter (fun x => dupKey x = k)) :=
      List.mem_of_mem_drop he'
    have he'g : e' ∈ db.entries.filter (fun x => dupKey x = k) :=
      (sortByCreatedAt_perm _).mem_iff.mp he'mem
    have he'es : e' ∈ db.entries := (List.mem_filter.mp he'g).1
    have hee : e' = e := hinj he'es he hid
    subst hee
    have hkey : dupKey e' = k := by
      have h2 := (List.mem_filter.mp he'g).2
      simpa using h2
    subst hkey
    exact ⟨hlen, he'⟩
  refine ⟨?_, ?_, ?_, by decide, by decide⟩
  · intro e he
    rw [hES] at he
    exact (List.mem_filter.mp he).1
  · intro e he
    by_cases hlen :
        (db.entries.filter (fun x => dupKey x = dupKey e)).length > 1
    · rcases hsrt : sortByCreatedAt
          (db.entries.filter (fun x => dupKey x = dupKey e)) with _ | ⟨h, t⟩
      · exfalso
        have hl := (sortByCreatedAt_perm
          (db.entries.filter (fun x => dupKey x = dupKey e))).length_eq
        rw [hsrt] at hl
        simp at hl
        omega
      · have hhg : h ∈ db.entries.filter (fun x => dupKey x = dupKey e) := by
          refine (sortByCreatedAt_perm _).mem_iff.mp ?_
          rw [hsrt]
          simp
        have hhes : h ∈ db.entries := (List.mem_filter.mp hhg).1
        have hhkey : dupKey h = dupKey e := by
          have h2 := (List.mem_filter.mp hhg).2
          simpa using h2
        have heg : e ∈ db.entries.filter (fun x => dupKey x = dupKey e) := by
          rw [List.mem_filter]
          exact ⟨he, by simp⟩
        refine ⟨h, ?_, hhkey, sortByCreatedAt_head_min _ h t hsrt e heg⟩
        rw [hES, List.mem_filter]
        refine ⟨hhes, ?_⟩
        simp only [decide_eq_true_eq]
        intro hmem
        have hrem := hremElim h hhes hmem
        rw [hhkey] at hrem
        have hh2 : h ∈ t := by
          have h3 := hrem.2
          rw [hsrt] at h3
          simpa using h3
        have hndg : (sortByCreatedAt
            (db.entries.filter (fun x => dupKey x = dupKey e))).Nodup :=
          ((sortByCreatedAt_perm _).nodup_iff).mpr (List.Nodup.filter _ hnd)
        rw [hsrt, List.nodup_cons] at hndg
        exact hndg.1 hh2
    · refine ⟨e, ?_, rfl, le_refl _⟩
      rw [hES, List.mem_filter]
      refine ⟨he, ?_⟩
      simp only [decide_eq_true_eq]
      intro hmem
      exact hlen (hremElim e he hmem).1
  · intro e₁ h1 e₂ h2 hkey
    rw [hES, List.mem_filter] at h1 h2
    obtain ⟨he1, hs1⟩ := h1
    obtain ⟨he2, hs2⟩ := h2
    simp only [decide_eq_true_eq] at hs1 hs2
    by_contra hne
    have he1g : e₁ ∈ db.entries.filter (fun x => dupKey x = dupKey e₁) := by
      rw [List.mem_filter]
      exact ⟨he1, by simp⟩
    have he2g : e₂ ∈ db.entries.filter (fun x => dupKey x = dupKey e₁) := by
      rw [List.mem_filter]
      exact ⟨he2, by simp [hkey]⟩
    have hglen :
        (db.entries.filter (fun x => dupKey x = dupKey e₁)).length > 1 := by
      rcases hg : db.entries.filter (fun x => dupKey x = dupKey e₁)
        with _ | ⟨a, g'⟩
      · rw [hg] at he1g
        simp at he1g
      · rcases g' with _ | ⟨b, g''⟩
        · rw [hg] at he1g he2g
          simp at he1g he2g
          exact absurd (he1g.trans he2g.symm) hne
        · simp
    have hgrp := group_of_mem he1
    rcases hsrt : sortByCreatedAt
        (db.entries.filter (fun x => dupKey x = dupKey e₁)) with _ | ⟨h, t⟩
    · exfalso
      have hl := (sortByCreatedAt_perm
        (db.entries.filter (fun x => dupKey x = dupKey e₁))).length_eq
      rw [hsrt] at hl
      simp at hl
      omega
    · have hmemt : ∀ x ∈ t, x.id ∈ entriesToRemove db.entries := by
        intro x hx
        refine mem_entriesToRemove.mpr
          ⟨dupKey e₁, _, hgrp, hglen, x, ?_, rfl⟩
        rw [hsrt]
        simpa using hx
      have hx1 : e₁ ∈ h :: t := by
        rw [← hsrt]
        exact (sortByCreatedAt_perm _).mem_iff.mpr he1g
      have hx2 : e₂ ∈ h :: t := by
        rw [← hsrt]
        exact (sortByCreatedAt_perm _).mem_iff.mpr he2g
      have he1h : e₁ = h := by
        rcases List.mem_cons.mp hx1 with rfl | hx
        · rfl
        · exact absurd (hmemt e₁ hx) hs1
      have he2h : e₂ = h := by
        rcases List.mem_cons.mp hx2 with rfl | hx
        · rfl
        · exact absurd (hmemt e₂ hx) hs2
      exact hne (he1h.trans he2h.symm)

/-- C4 witness: the cleanup theorem applied to the Scenario C store (two
plaintext `ok` entries with equal timestamps, created at 1 and 2). -/
theorem cleanup_keeps_unique_earliest_per_key_witness :
    (∀ e ∈ (cleanupDuplicateEntries dbScenarioC).1.entries,
       e ∈ dbScenarioC.entries) ∧
    (∀ e ∈ dbScenarioC.entries,
       ∃ e' ∈ (cleanupDuplicateEntries dbScenarioC).1.entries,
         dupKey e' = dupKey e ∧ e'.createdAt ≤ e.createdAt) ∧
    (∀ e₁ ∈ (cleanupDuplicateEntries dbScenarioC).1.entries,
     ∀ e₂ ∈ (cleanupDuplicateEntries dbScenarioC).1.entries,
       dupKey e₁ = dupKey e₂ → e₁ = e₂) ∧
    (cleanupDuplicateEntries dbScenarioC).1.entries.map (fun e => e.id) =
      ["t1"] ∧
    (cleanupDuplicateEntries dbScenarioC).2.1 = 1 :=
  cleanup_keeps_unique_earliest_per_key dbScenarioC (by decide)

end VibeJournal
